import Mathlib

/-!
Fast integer division by a constant (Eigen `TensorIntDiv.h`).

A shallow embedding of `Eigen::internal::TensorIntDivisor` (the Granlund-Montgomery
general divisor for 32- and 64-bit index types, and the Hacker's-Delight style
specialisation for signed 32-bit integers), together with the properties of it that are
proved below.

Conventions of the embedding:
* a value of a signed type `T` (`int32_t`, `int64_t`) is an `Int`;
* a value of an unsigned type of width `w` is a `Nat`, and every unsigned operation is
  reduced `% 2 ^ w` exactly where the C++ operation wraps;
* `eigen_assert` is a check that aborts: a constructor or method guarded by it returns
  `none` when the asserted condition is false.
-/

namespace Eigen.internal

/-! ## Machine integers -/

/-- Value of `static_cast<U>(x)` for a signed `x` and the unsigned type `U` of width `w`. -/
def toUnsigned (w : Nat) (x : Int) : Nat := (x % 2 ^ w).toNat

/-- Value of a `w`-bit unsigned pattern read back as the signed type of the same width. -/
def toSigned (w : Nat) (u : Nat) : Int :=
  if u < 2 ^ (w - 1) then (u : Int) else (u : Int) - 2 ^ w

/-- Unsigned addition `a + b` in width `w`. -/
def uadd (w a b : Nat) : Nat := (a + b) % 2 ^ w

/-- Unsigned subtraction `a - b` in width `w` (operands already reduced). -/
def usub (w a b : Nat) : Nat := (a + 2 ^ w - b) % 2 ^ w

/-- Unsigned multiplication `a * b` in width `w`. -/
def umul (w a b : Nat) : Nat := (a * b) % 2 ^ w

/-- Unsigned left shift `a << s` in width `w`. -/
def ushl (w a s : Nat) : Nat := (a <<< s) % 2 ^ w

/-- Modelled from the spec: `NumTraits<UnsignedType>::highest()`, the largest value of the
unsigned type of width `N` (the `NumTraits` declaration is outside the excerpt). -/
def highest (N : Nat) : Nat := 2 ^ N - 1

/-! ## Leading zero count (host path) -/

/-- Number of zero bits of `v` from bit `k - 1` downwards, before the first set bit. -/
def clzFrom : Nat → Nat → Nat
  | 0, _ => 0
  | k + 1, v => if v / 2 ^ k % 2 = 1 then 0 else clzFrom k v + 1

/-- Modelled from the spec: the host branch of `count_leading_zeros`
(`__builtin_clz` / `__builtin_clzll`, compiler builtins that are not repository code):
the count of leading zero bits of an `N`-bit unsigned value. -/
def count_leading_zeros (N : Nat) (val : Nat) : Nat := clzFrom N val

/-! ## Multiply-high (host path) -/

/-- Host branch of `muluh(a, b)` for the unsigned type of width `N`: `b` (of the signed
type `T`) is converted to the `2N`-bit unsigned type, the product is taken there, shifted
right by `N` and returned in `N` bits. -/
def muluh (N : Nat) (a : Nat) (b : Int) : Nat :=
  (umul (2 * N) a (toUnsigned (2 * N) b) >>> N) % 2 ^ N

/-! ## General divisor -/

/-- `DividerHelper<N, T>::computeMultiplier(log_div, divider)`: the expression
`(1 << (N+log_div)) / divider - (1 << N) + 1` in the `2N`-bit unsigned type, cast to
`N` bits. -/
def computeMultiplier (N : Nat) (log_div : Int) (divider : Int) : Nat :=
  uadd (2 * N)
    (usub (2 * N) (ushl (2 * N) 1 (N + log_div).toNat / toUnsigned (2 * N) divider)
      (ushl (2 * N) 1 N)) 1 % 2 ^ N

/-- The members of `TensorIntDivisor<T, false>`. -/
structure TensorIntDivisor where
  multiplier : Nat
  shift1 : Int
  shift2 : Int
deriving DecidableEq, Repr

/-- Default constructor of `TensorIntDivisor<T, false>`. -/
def TensorIntDivisor.default : TensorIntDivisor :=
  { multiplier := 0, shift1 := 0, shift2 := 0 }

/-- The local `log_div` of the constructor after the power-of-two adjustment. -/
def log_div (N : Nat) (divider : Int) : Int :=
  let leading_zeros : Int := count_leading_zeros N (toUnsigned N divider)
  let log_div : Int := (N : Int) - leading_zeros
  if ushl N 1 (log_div - 1).toNat = toUnsigned N divider then log_div - 1 else log_div

/-- Body of the constructor `TensorIntDivisor(const T divider)` after its assertions. -/
def TensorIntDivisor.init (N : Nat) (divider : Int) : TensorIntDivisor :=
  let l := log_div N divider
  { multiplier := computeMultiplier N l divider
    shift1 := if l > 1 then 1 else l
    shift2 := if l > 1 then l - 1 else 0 }

/-- First assertion of the constructor:
`static_cast<UnsignedType>(divider) < NumTraits<UnsignedType>::highest()/2`. -/
def dividerInRange (N : Nat) (divider : Int) : Bool :=
  decide (toUnsigned N divider < highest N / 2)

/-- Constructor `TensorIntDivisor(const T divider)` with its two `eigen_assert`s. -/
def TensorIntDivisor.construct (N : Nat) (divider : Int) : Option TensorIntDivisor :=
  if ¬ dividerInRange N divider then none
  else if ¬ (divider > 0) then none
  else some (TensorIntDivisor.init N divider)

/-- The unsigned value `(t1 + t) >> shift2` computed by `divide`. -/
def TensorIntDivisor.quotientBits (N : Nat) (s : TensorIntDivisor) (numerator : Int) : Nat :=
  let t1 := muluh N s.multiplier numerator
  let t := usub N (toUnsigned N numerator) t1 >>> s.shift1.toNat
  uadd N t1 t >>> s.shift2.toNat

/-- The arithmetic of `divide` after its assertion: the unsigned value is returned as `T`. -/
def TensorIntDivisor.divideBody (N : Nat) (s : TensorIntDivisor) (numerator : Int) : Int :=
  toSigned N (s.quotientBits N numerator)

/-- Assertion of `divide`:
`static_cast<UnsignedType>(numerator) < NumTraits<UnsignedType>::highest()/2`. -/
def numeratorInRange (N : Nat) (numerator : Int) : Bool :=
  decide (toUnsigned N numerator < highest N / 2)

/-- The method `divide(const T numerator)` with its `eigen_assert`. -/
def TensorIntDivisor.divide (N : Nat) (s : TensorIntDivisor) (numerator : Int) :
    Option Int :=
  if ¬ numeratorInRange N numerator then none
  else some (s.divideBody N numerator)

/-- Construct from `d`, then `divide(n)`: `none` when an assertion fails. -/
def generalDivide (N : Nat) (d n : Int) : Option Int :=
  (TensorIntDivisor.construct N d).bind fun s => s.divide N n

/-! ## Specialised divisor for signed 32-bit integers -/

/-- The members of `TensorIntDivisor<int32_t, true>`. -/
structure TensorIntDivisor_int32_true where
  magic : Nat
  shift : Int
deriving DecidableEq, Repr

/-- Default constructor of `TensorIntDivisor<int32_t, true>`. -/
def TensorIntDivisor_int32_true.default : TensorIntDivisor_int32_true :=
  { magic := 0, shift := 0 }

/-- The local variables of `calcMagic` that live across iterations of its loop. -/
structure MagicState where
  p : Int
  q1 : Nat
  r1 : Nat
  q2 : Nat
  r2 : Nat
  delta : Nat
deriving DecidableEq, Repr

/-- One execution of the body of the `do ... while` loop of `calcMagic`, on 32-bit
unsigned values. -/
def calcMagicBody (ad anc : Nat) (s : MagicState) : MagicState :=
  let p := s.p + 1
  let q1 := umul 32 2 s.q1
  let r1 := umul 32 2 s.r1
  let q1a := if r1 ≥ anc then uadd 32 q1 1 else q1
  let r1a := if r1 ≥ anc then usub 32 r1 anc else r1
  let q2 := umul 32 2 s.q2
  let r2 := umul 32 2 s.r2
  let q2a := if r2 ≥ ad then uadd 32 q2 1 else q2
  let r2a := if r2 ≥ ad then usub 32 r2 ad else r2
  { p := p, q1 := q1a, r1 := r1a, q2 := q2a, r2 := r2a, delta := usub 32 ad r2a }

/-- The loop condition `q1 < delta || (q1 == delta && r1 == 0)`. -/
def calcMagicCond (s : MagicState) : Bool :=
  decide (s.q1 < s.delta) || (decide (s.q1 = s.delta) && decide (s.r1 = 0))

/-- The `do ... while` loop of `calcMagic`: the body runs, then the condition decides
whether it runs again. `fuel` bounds the number of executions of the body; `none` means
the bound was reached with the condition still true. -/
def calcMagicLoop (ad anc : Nat) : Nat → MagicState → Option MagicState
  | 0, _ => none
  | fuel + 1, s =>
    let s1 := calcMagicBody ad anc s
    if calcMagicCond s1 then calcMagicLoop ad anc fuel s1 else some s1

/-- The state of `calcMagic(d)` on entry to its loop. -/
def calcMagicEntry (d : Int) : Nat × Nat × MagicState :=
  let two31 : Nat := 0x80000000
  let ad := toUnsigned 32 d
  let t := uadd 32 two31 (ad >>> 31)
  let anc := usub 32 (usub 32 t 1) (t % ad)
  let q1 := two31 / anc
  let r1 := usub 32 two31 (umul 32 q1 anc)
  let q2 := two31 / ad
  let r2 := usub 32 two31 (umul 32 q2 ad)
  (ad, anc, { p := 31, q1 := q1, r1 := r1, q2 := q2, r2 := r2, delta := 0 })

/-- The method `calcMagic(d)`: the members `magic` and `shift` it stores, when its loop
ends within `fuel` executions of the body. -/
def calcMagic (fuel : Nat) (d : Int) : Option TensorIntDivisor_int32_true :=
  let e := calcMagicEntry d
  (calcMagicLoop e.1 e.2.1 fuel e.2.2).map fun s =>
    { magic := uadd 32 s.q2 1, shift := s.p - 32 }

/-- Outcome of a guarded computation: a value, a failed `eigen_assert`, or a loop that
did not end within the fuel. -/
inductive Outcome (α : Type) where
  | ok (value : α)
  | assertionFailed
  | outOfFuel
deriving DecidableEq, Repr

/-- Constructor `TensorIntDivisor(int32_t divider)` of the specialisation, with its
`eigen_assert(divider >= 2)`. -/
def TensorIntDivisor_int32_true.construct (fuel : Nat) (divider : Int) :
    Outcome TensorIntDivisor_int32_true :=
  if ¬ (divider ≥ 2) then Outcome.assertionFailed
  else match calcMagic fuel divider with
    | some s => Outcome.ok s
    | none => Outcome.outOfFuel

/-- Host branch of `divide(const int32_t n)` of the specialisation: the 64-bit product
of `magic` and `n` (converted to `uint64_t`), its high half as `uint32_t`, shifted right
by `shift` and returned as `int`. -/
def TensorIntDivisor_int32_true.divide (s : TensorIntDivisor_int32_true) (n : Int) : Int :=
  let v := umul 64 s.magic (toUnsigned 64 n)
  toSigned 32 (((v >>> 32) % 2 ^ 32) >>> s.shift.toNat)

/-- Construct the specialisation from `d`, then `divide(n)`. -/
def specializedDivide (fuel : Nat) (d n : Int) : Outcome Int :=
  match TensorIntDivisor_int32_true.construct fuel d with
  | Outcome.ok s => Outcome.ok (s.divide n)
  | Outcome.assertionFailed => Outcome.assertionFailed
  | Outcome.outOfFuel => Outcome.outOfFuel

/-! ## Accelerator (HCC) primitives of `intrinsics.h`

`int` and `unsigned int` are 32 bits wide, `long long`, `unsigned long` and
`unsigned long long` are 64 bits wide (LP64). Signed `/` and `%` are the truncating
C operations. -/

/-- The `for` loop of `__hip_clz` / `__hip_clzll`: `n` remaining iterations on the running
`count` and `input`; each iteration tests `input % 2 == 0` and halves `input`. -/
def hip_clz_loop : Nat → Int → Int → Int
  | 0, count, _ => count
  | n + 1, count, input =>
    hip_clz_loop n (if Int.tmod input 2 = 0 then count + 1 else 0) (Int.tdiv input 2)

/-- The function `int __hip_clz(int x)`: 32 iterations of the loop from `count = 0`. -/
def __hip_clz (x : Int) : Int := hip_clz_loop 32 0 x

/-- The function `unsigned int __hip_umulhi(unsigned int x, unsigned int y)`: the product
in `unsigned long`, shifted right by 32 and cast to `unsigned int`. -/
def __hip_umulhi (x y : Nat) : Nat := (umul 64 x y >>> 32) % 2 ^ 32

/-- The body of `__hip_umul64hi(x, y)`, statement by statement. The three sums that the
code forms in `unsigned long long` are recorded as exact natural numbers (`sum1`, `sum2`,
`sum3`) and reduced `% 2 ^ 64` where the code stores them; the last component is the
returned value. The words `part[0]` and `part[1]`, which the code stores but never reads,
are left out. -/
def umul64hi_steps (x y : Nat) : Nat × Nat × Nat × Nat :=
  let lo : Nat := 0x00000000FFFFFFFF
  let hi : Nat := 0xFFFFFFFF00000000
  let in1_lo := x &&& lo
  let in1_hi := (x &&& hi) >>> 32
  let in2_lo := y &&& lo
  let in2_hi := (y &&& hi) >>> 32
  let out0 := umul 64 in1_lo in2_lo
  let out1 := umul 64 in1_lo in2_hi
  let out2 := umul 64 in1_hi in2_lo
  let out3 := umul 64 in1_hi in2_hi
  let sum1 := ((out0 &&& hi) >>> 32) + (out1 &&& lo) + (out2 &&& lo)
  let res1 := sum1 % 2 ^ 64
  let carry1 := (res1 &&& hi) >>> 32
  let sum2 := carry1 + ((out1 &&& hi) >>> 32) + ((out2 &&& hi) >>> 32) + (out3 &&& lo)
  let res2 := sum2 % 2 ^ 64
  let part2 := res2 &&& lo
  let carry2 := (res2 &&& hi) >>> 32
  let sum3 := carry2 + ((out3 &&& hi) >>> 32)
  let part3 := sum3 % 2 ^ 64
  (sum1, sum2, sum3, (ushl 64 part3 32 &&& hi) ||| (part2 &&& lo))

/-- The function `unsigned long long __hip_umul64hi(unsigned long long x,
unsigned long long y)`. -/
def __hip_umul64hi (x y : Nat) : Nat := (umul64hi_steps x y).2.2.2

/-! ## Accelerator (HCC) branches of `TensorIntDiv.h` -/

/-- HCC branch of the 32-bit `count_leading_zeros(val)`: `__hip_clz(val)`, the unsigned
argument being converted to the `int` parameter. -/
def count_leading_zeros_hcc (val : Nat) : Int := __hip_clz (toSigned 32 val)

/-- HCC branch of the 32-bit `muluh(a, b)`: `__hip_umulhi(a, b)`, with `b` converted to
the `unsigned int` parameter. -/
def muluh_hcc (a : Nat) (b : Int) : Nat := __hip_umulhi a (toUnsigned 32 b)

/-- HCC branch of the 64-bit `muluh(a, b)`: it also calls `__hip_umulhi(a, b)`, whose
parameters and result are `unsigned int`; both arguments are converted to 32 bits and the
32-bit result is returned as `uint64_t`. -/
def muluh_hcc64 (a : Nat) (b : Int) : Nat := __hip_umulhi (a % 2 ^ 32) (toUnsigned 32 b)

/-- The local `log_div` of the 32-bit constructor on the accelerator. -/
def log_div_hcc (divider : Int) : Int :=
  let leading_zeros : Int := count_leading_zeros_hcc (toUnsigned 32 divider)
  let log_div : Int := 32 - leading_zeros
  if ushl 32 1 (log_div - 1).toNat = toUnsigned 32 divider then log_div - 1 else log_div

/-- Body of the 32-bit constructor on the accelerator. -/
def TensorIntDivisor.init_hcc (divider : Int) : TensorIntDivisor :=
  let l := log_div_hcc divider
  { multiplier := computeMultiplier 32 l divider
    shift1 := if l > 1 then 1 else l
    shift2 := if l > 1 then l - 1 else 0 }

/-- The 32-bit constructor on the accelerator, with its two `eigen_assert`s. -/
def TensorIntDivisor.construct_hcc (divider : Int) : Option TensorIntDivisor :=
  if ¬ dividerInRange 32 divider then none
  else if ¬ (divider > 0) then none
  else some (TensorIntDivisor.init_hcc divider)

/-- The 32-bit `divide` on the accelerator, with its `eigen_assert`. -/
def TensorIntDivisor.divide_hcc (s : TensorIntDivisor) (numerator : Int) : Option Int :=
  if ¬ numeratorInRange 32 numerator then none
  else
    let t1 := muluh_hcc s.multiplier numerator
    let t := usub 32 (toUnsigned 32 numerator) t1 >>> s.shift1.toNat
    some (toSigned 32 (uadd 32 t1 t >>> s.shift2.toNat))

/-- Construct from `d` and `divide(n)` on the accelerator (32-bit). -/
def generalDivide_hcc (d n : Int) : Option Int :=
  (TensorIntDivisor.construct_hcc d).bind fun s => s.divide_hcc n

/-- Accelerator branch of `divide(const int32_t n)` of the specialisation:
`__hip_umulhi(magic, n) >> shift`, with `n` converted to `unsigned int`, returned as
`int`. -/
def TensorIntDivisor_int32_true.divide_hcc (s : TensorIntDivisor_int32_true) (n : Int) :
    Int :=
  toSigned 32 (__hip_umulhi s.magic (toUnsigned 32 n) >>> s.shift.toNat)

/-- The function `int __hip_clzll(long long x)`: 64 iterations of the loop from
`count = 0`. -/
def __hip_clzll (x : Int) : Int := hip_clz_loop 64 0 x

/-! ## Half-precision comparison intrinsics of `intrinsics.h` -/

/-- The struct `__hip_half`: its raw pattern `x`, an `unsigned short`. -/
structure __hip_half where
  x : Nat
deriving DecidableEq, Repr

/-- The function `bool __hip_hisnan(const __hip_half a)`:
`(a.x == a.x) ? false : true`. -/
def __hip_hisnan (a : __hip_half) : Bool := if a.x = a.x then false else true

/-- The function `int __hip_hisinf(const __hip_half a)`. -/
def __hip_hisinf (a : __hip_half) : Int :=
  if a.x = 0xFC00 then -1 else if a.x = 0x7C00 then 1 else 0

/-- The function `bool __hip_heq(const __hip_half a, const __hip_half b)`; an `int` used
as a condition is true when it is nonzero. -/
def __hip_heq (a b : __hip_half) : Bool :=
  if __hip_hisnan a || __hip_hisnan b then false
  else if !(decide (__hip_hisinf a ≠ 0) || decide (__hip_hisinf b ≠ 0)) then decide (a.x = b.x)
  else if __hip_hisinf a = __hip_hisinf b then true
  else false

/-! ## `divup` of `TensorMeta.h` -/

/-- The function `divup(x, y)`: `(x + y - 1) / y` with the truncating division of C++, on
integers that the sum does not overflow. -/
def divup (x y : Int) : Int := Int.tdiv (x + y - 1) y

/-! ## Serialisation of a one-element divisor array (`TensorIntDiv.h`, HCC) -/

/-- The method `array<TensorIntDivisor<int, false>, 1>::__cxxamp_serialize`: it appends
the `sizeof(unsigned int)` bytes of `values[0].multiplier`; the word emitted. -/
def __cxxamp_serialize (values0 : TensorIntDivisor) : Nat := values0.multiplier

/-- The `user_deserialize` constructor `array(unsigned int divider)`:
`values[0] = TensorIntDivisor<int, false>(divider)`, the argument being converted to the
`int` parameter of the divisor's constructor. -/
def array_user_deserialize (divider : Nat) : Option TensorIntDivisor :=
  TensorIntDivisor.construct 32 (toSigned 32 divider)

/-- Loop invariant of `calcMagic`: after `k` executions of the body the state holds
`p = 31 + k` and the exact quotients and remainders of `2^p` by `anc` and by `d`. -/
def MagicExact (d anc k : Nat) (s : MagicState) : Prop :=
  s.p = 31 + (k : Int) ∧ s.q1 = 2 ^ (31 + k) / anc ∧ s.r1 = 2 ^ (31 + k) % anc ∧
    s.q2 = 2 ^ (31 + k) / d ∧ s.r2 = 2 ^ (31 + k) % d

instance (d anc k : Nat) (s : MagicState) : Decidable (MagicExact d anc k s) := by
  unfold MagicExact
  infer_instance

/-! ## Auxiliary facts about the machine-integer model -/

theorem toUnsigned_natCast (w n : Nat) (h : n < 2 ^ w) : toUnsigned w (n : Int) = n := by
  unfold toUnsigned
  have h1 : ((n : Int) % 2 ^ w) = ((n % 2 ^ w : Nat) : Int) := by push_cast; rfl
  rw [h1, Nat.mod_eq_of_lt h]
  simp

theorem toSigned_natCast (w n : Nat) (h : n < 2 ^ (w - 1)) : toSigned w n = (n : Int) := by
  unfold toSigned
  rw [if_pos h]

theorem one_shiftLeft_eq (s : Nat) : (1 : Nat) <<< s = 2 ^ s := by
  rw [Nat.shiftLeft_eq, one_mul]

theorem clzFrom_spec (k v : Nat) (h0 : 0 < v) (hk : v < 2 ^ k) :
    clzFrom k v < k ∧ 2 ^ (k - 1 - clzFrom k v) ≤ v ∧ v < 2 ^ (k - clzFrom k v) := by
  induction k with
  | zero => simp at hk; omega
  | succ k ih =>
    unfold clzFrom
    split
    · rename_i hb
      refine ⟨by omega, ?_, by simpa using hk⟩
      simp only [Nat.add_sub_cancel, Nat.sub_zero]
      by_contra hlt
      push_neg at hlt
      rw [Nat.div_eq_of_lt hlt] at hb
      simp at hb
    · rename_i hb
      have hlt : v < 2 ^ k := by
        by_contra hge
        push_neg at hge
        have h1 : v / 2 ^ k < 2 := by
          rw [Nat.div_lt_iff_lt_mul (by positivity)]
          rw [pow_succ] at hk
          omega
        have h2 : 1 ≤ v / 2 ^ k := by
          rw [Nat.le_div_iff_mul_le (by positivity)]
          omega
        omega
      obtain ⟨a, b, c⟩ := ih hlt
      refine ⟨by omega, ?_, ?_⟩
      · have e : k + 1 - 1 - (clzFrom k v + 1) = k - 1 - clzFrom k v := by omega
        rw [e]
        exact b
      · have e : k + 1 - (clzFrom k v + 1) = k - clzFrom k v := by omega
        rw [e]
        exact c

/-- The adjusted `log_div` is the ceiling of the binary logarithm of the divider. -/
theorem log_div_spec (N d : Nat) (h0 : 0 < d) (hd : d < 2 ^ N) :
    ∃ l : Nat, log_div N (d : Int) = (l : Int) ∧ l ≤ N ∧ d ≤ 2 ^ l ∧
      (1 ≤ l → 2 ^ (l - 1) < d) := by
  obtain ⟨hc, hlo, hhi⟩ := clzFrom_spec N d h0 hd
  unfold log_div count_leading_zeros
  simp only [toUnsigned_natCast N d hd]
  generalize clzFrom N d = c at hc hlo hhi
  have e1 : ((N : Int) - (c : Int) - 1).toNat = N - 1 - c := by omega
  have hlt : 2 ^ (N - 1 - c) < 2 ^ N := Nat.pow_lt_pow_right (by norm_num) (by omega)
  rw [e1]
  unfold ushl
  rw [one_shiftLeft_eq, Nat.mod_eq_of_lt hlt]
  split
  · rename_i heq
    refine ⟨N - 1 - c, by omega, by omega, by omega, ?_⟩
    intro h1
    rw [← heq]
    exact Nat.pow_lt_pow_right (by norm_num) (by omega)
  · rename_i hne
    refine ⟨N - c, by omega, by omega, by omega, ?_⟩
    intro _
    have e2 : N - c - 1 = N - 1 - c := by omega
    rw [e2]
    omega

/-- Division by multiplication: if `m = ⌊2^p / d⌋ + 1` and the excess
`e = d - 2^p mod d` satisfies `e * n < 2^p * (d - n mod d)`, then `⌊m * n / 2^p⌋ = ⌊n / d⌋`. -/
theorem magic_div (p d n : Nat) (hd : 0 < d)
    (h : (d - 2 ^ p % d) * n < 2 ^ p * (d - n % d)) :
    (2 ^ p / d + 1) * n / 2 ^ p = n / d := by
  have hP := Nat.div_add_mod (2 ^ p) d
  have hn := Nat.div_add_mod n d
  have hB : 2 ^ p % d < d := Nat.mod_lt _ hd
  have hr : n % d < d := Nat.mod_lt _ hd
  generalize 2 ^ p = P at *
  generalize hA : P / d = A at *
  generalize hBe : P % d = B at *
  generalize hq : n / d = q at *
  generalize hre : n % d = r at *
  obtain ⟨e, he⟩ : ∃ e, e + B = d := ⟨d - B, by omega⟩
  obtain ⟨t, ht⟩ : ∃ t, t + r = d := ⟨d - r, by omega⟩
  have e1 : d - B = e := by omega
  have e2 : d - r = t := by omega
  rw [e1, e2] at h
  apply Nat.div_eq_of_lt_le
  · have : q * B ≤ q * d := Nat.mul_le_mul_left q hB.le
    nlinarith
  · apply Nat.lt_of_mul_lt_mul_left (a := d)
    have l1 : d * ((A + 1) * n) = P * n + e * n := by
      rw [← hP, ← he]
      ring
    have l2 : d * ((q + 1) * P) = P * n + P * t := by
      rw [← hn, ← ht]
      ring
    rw [l1, l2]
    omega

/-- The multiplier stored by the constructor, as an exact integer. -/
theorem computeMultiplier_spec (N d l : Nat) (h0 : 0 < d) (hl : l < N) (hle : d ≤ 2 ^ l)
    (hgt : 1 ≤ l → 2 ^ (l - 1) < d) :
    computeMultiplier N (l : Int) (d : Int) + 2 ^ N = 2 ^ (N + l) / d + 1 ∧
      1 ≤ computeMultiplier N (l : Int) (d : Int) ∧
      computeMultiplier N (l : Int) (d : Int) < 2 ^ N := by
  have hN : N < 2 * N := by omega
  have hNl : N + l < 2 * N := by omega
  have hpN : 2 ^ N < 2 ^ (2 * N) := Nat.pow_lt_pow_right (by norm_num) hN
  have hpNl : 2 ^ (N + l) < 2 ^ (2 * N) := Nat.pow_lt_pow_right (by norm_num) hNl
  have hdW : d < 2 ^ (2 * N) :=
    lt_of_le_of_lt hle (Nat.pow_lt_pow_right (by norm_num) (by omega))
  have hlo : 2 ^ N ≤ 2 ^ (N + l) / d := by
    rw [Nat.le_div_iff_mul_le h0, pow_add]
    exact Nat.mul_le_mul_left _ hle
  have hNpos : 1 ≤ 2 ^ N := Nat.one_le_two_pow
  have hhi : 2 ^ (N + l) / d + 2 ≤ 2 * 2 ^ N := by
    rcases Nat.eq_zero_or_pos l with h | h
    · subst h
      have hd1 : d = 1 := by
        simp at hle
        omega
      subst hd1
      have : 2 ≤ 2 ^ N := by
        calc 2 = 2 ^ 1 := by norm_num
          _ ≤ 2 ^ N := Nat.pow_le_pow_right (by norm_num) (by omega)
      simp only [Nat.add_zero, Nat.div_one]
      omega
    · have hg := hgt h
      have h2 : 2 ^ (N + l) / d < 2 * 2 ^ N - 1 := by
        rw [Nat.div_lt_iff_lt_mul h0]
        have e1 : 2 ^ (N + l) = 2 * 2 ^ N * 2 ^ (l - 1) := by
          rw [← pow_succ', ← pow_add]
          congr 1
          omega
        have h3 : 2 ^ (l - 1) < 2 ^ N := Nat.pow_lt_pow_right (by norm_num) (by omega)
        have h3a : 1 ≤ 2 ^ (l - 1) := Nat.one_le_two_pow
        obtain ⟨a, ha⟩ : ∃ a, 2 * 2 ^ N = a + 1 := ⟨2 * 2 ^ N - 1, by omega⟩
        have h4 : a * (2 ^ (l - 1) + 1) ≤ a * d := Nat.mul_le_mul_left _ hg
        have h5 : 2 ^ (l - 1) < a := by omega
        rw [e1, ha]
        simp only [Nat.add_sub_cancel]
        nlinarith
      omega
  have hval : computeMultiplier N (l : Int) (d : Int) = 2 ^ (N + l) / d - 2 ^ N + 1 := by
    unfold computeMultiplier uadd usub ushl
    have e0 : ((N : Int) + (l : Int)).toNat = N + l := by omega
    rw [e0, one_shiftLeft_eq, one_shiftLeft_eq, Nat.mod_eq_of_lt hpNl, Nat.mod_eq_of_lt hpN,
      toUnsigned_natCast _ _ hdW]
    generalize 2 ^ (N + l) / d = M at *
    have e1 : M + 2 ^ (2 * N) - 2 ^ N = (M - 2 ^ N) + 2 ^ (2 * N) := by omega
    have e2 : (M - 2 ^ N) % 2 ^ (2 * N) = M - 2 ^ N := Nat.mod_eq_of_lt (by omega)
    have e3 : (M - 2 ^ N + 1) % 2 ^ (2 * N) = M - 2 ^ N + 1 := Nat.mod_eq_of_lt (by omega)
    have e4 : (M - 2 ^ N + 1) % 2 ^ N = M - 2 ^ N + 1 := Nat.mod_eq_of_lt (by omega)
    rw [e1, Nat.add_mod_right, e2, e3, e4]
  rw [hval]
  refine ⟨by omega, by omega, by omega⟩

theorem muluh_natCast (N m n : Nat) (hm : m < 2 ^ N) (hn : n < 2 ^ N) :
    muluh N m (n : Int) = m * n / 2 ^ N := by
  have hW : 2 ^ (2 * N) = 2 ^ N * 2 ^ N := by rw [two_mul, pow_add]
  have hnW : n < 2 ^ (2 * N) := by
    rw [hW]
    exact lt_of_lt_of_le hn (Nat.le_mul_of_pos_left _ (by positivity))
  have hmn : m * n < 2 ^ (2 * N) := by
    rw [hW]
    exact Nat.mul_lt_mul'' hm hn
  unfold muluh umul
  rw [toUnsigned_natCast _ _ hnW, Nat.mod_eq_of_lt hmn, Nat.shiftRight_eq_div_pow]
  apply Nat.mod_eq_of_lt
  rw [Nat.div_lt_iff_lt_mul (by positivity), ← hW]
  exact hmn

/-- The shifts stored by the constructor, in terms of `log_div`. -/
theorem init_shifts (N : Nat) (d : Int) (l : Nat) (hl : log_div N d = (l : Int)) :
    (TensorIntDivisor.init N d).shift1 = (min l 1 : Nat) ∧
      (TensorIntDivisor.init N d).shift2 = (l - 1 : Nat) := by
  unfold TensorIntDivisor.init
  simp only [hl]
  constructor
  · split <;> omega
  · split <;> omega

/-- Unsigned result of `divide` on a constructed divisor: the exact quotient, for every
divider up to `2^(N-1)` and every `N`-bit numerator. -/
theorem quotientBits_init (N d n : Nat) (h0 : 0 < d) (hd : d ≤ 2 ^ (N - 1)) (hN : 1 ≤ N)
    (hn : n < 2 ^ N) :
    (TensorIntDivisor.init N (d : Int)).quotientBits N (n : Int) = n / d := by
  have hdN : d < 2 ^ N :=
    lt_of_le_of_lt hd (Nat.pow_lt_pow_right (by norm_num) (by omega))
  obtain ⟨l, hl, hlN, hle, hgt⟩ := log_div_spec N d h0 hdN
  have hlN1 : l < N := by
    rcases Nat.eq_zero_or_pos l with h | h
    · omega
    · have h1 : 2 ^ (l - 1) < 2 ^ (N - 1) := lt_of_lt_of_le (hgt h) hd
      have := (Nat.pow_lt_pow_iff_right (by norm_num : 1 < 2)).1 h1
      omega
  obtain ⟨hs1, hs2⟩ := init_shifts N d l hl
  obtain ⟨hm, hm1, hmN⟩ := computeMultiplier_spec N d l h0 hlN1 hle hgt
  have hmul : (TensorIntDivisor.init N (d : Int)).multiplier
      = computeMultiplier N (l : Int) (d : Int) := by
    unfold TensorIntDivisor.init
    simp only [hl]
  unfold TensorIntDivisor.quotientBits
  simp only [hs1, hs2, hmul, Int.toNat_ofNat]
  generalize computeMultiplier N (l : Int) (d : Int) = m at hm hm1 hmN
  rw [muluh_natCast N m n hmN hn, toUnsigned_natCast N n hn]
  have ht1 : m * n / 2 ^ N ≤ n := by
    apply Nat.div_le_of_le_mul
    exact Nat.mul_le_mul_right n hmN.le
  have hsum : m * n / 2 ^ N + n = (2 ^ (N + l) / d + 1) * n / 2 ^ N := by
    rw [← hm, add_mul, Nat.add_mul_div_left _ _ (by positivity)]
  generalize m * n / 2 ^ N = t1 at ht1 hsum
  unfold usub uadd
  have e1 : n + 2 ^ N - t1 = (n - t1) + 2 ^ N := by omega
  rw [e1, Nat.add_mod_right, Nat.mod_eq_of_lt (by omega : n - t1 < 2 ^ N),
    Nat.shiftRight_eq_div_pow, Nat.shiftRight_eq_div_pow]
  rcases Nat.eq_zero_or_pos l with h | h
  · subst h
    have hd1 : d = 1 := by
      simp at hle
      omega
    subst hd1
    have hm1 : m = 1 := by
      simp only [Nat.add_zero, Nat.div_one] at hm
      omega
    subst hm1
    have ht0 : t1 = 0 := by
      simp only [Nat.add_zero, Nat.div_one] at hsum
      have e : (2 ^ N + 1) * n / 2 ^ N = n := by
        rw [add_mul, one_mul, Nat.mul_add_div (by positivity), Nat.div_eq_of_lt hn]
        rfl
      omega
    subst ht0
    simp only [Nat.zero_le, Nat.min_eq_left, pow_zero, Nat.div_one, Nat.sub_zero, Nat.zero_add,
      Nat.zero_sub]
    exact Nat.mod_eq_of_lt hn
  · have hmin : min l 1 = 1 := by omega
    rw [hmin, pow_one]
    have e2 : t1 + (n - t1) / 2 = (t1 + n) / 2 := by omega
    rw [e2, Nat.mod_eq_of_lt (by omega : (t1 + n) / 2 < 2 ^ N), hsum, Nat.div_div_eq_div_mul,
      Nat.div_div_eq_div_mul]
    have e3 : 2 ^ N * (2 * 2 ^ (l - 1)) = 2 ^ (N + l) := by
      rw [← pow_succ', ← pow_add]
      congr 2
      omega
    rw [e3]
    apply magic_div _ _ _ h0
    have h1 : d - 2 ^ (N + l) % d ≤ 2 ^ l := le_trans (Nat.sub_le _ _) hle
    have h2 : 1 ≤ d - n % d := by
      have := Nat.mod_lt n h0
      omega
    calc (d - 2 ^ (N + l) % d) * n ≤ 2 ^ l * n := Nat.mul_le_mul_right _ h1
      _ < 2 ^ l * 2 ^ N := Nat.mul_lt_mul_of_pos_left hn (by positivity)
      _ = 2 ^ (N + l) * 1 := by rw [pow_add, mul_comm, mul_one]
      _ ≤ 2 ^ (N + l) * (d - n % d) := Nat.mul_le_mul_left _ h2

theorem highest_half (N : Nat) (hN : 1 ≤ N) : highest N / 2 = 2 ^ (N - 1) - 1 := by
  unfold highest
  have e : 2 ^ N = 2 * 2 ^ (N - 1) := by
    rw [← pow_succ']
    congr 1
    omega
  have h1 : 1 ≤ 2 ^ (N - 1) := Nat.one_le_two_pow
  omega

theorem construct_natCast (N d : Nat) (hN : 1 ≤ N) (h0 : 0 < d) (hd : d < 2 ^ (N - 1) - 1) :
    TensorIntDivisor.construct N (d : Int) = some (TensorIntDivisor.init N (d : Int)) := by
  have hdN : d < 2 ^ N :=
    lt_of_lt_of_le (by omega : d < 2 ^ (N - 1)) (Nat.pow_le_pow_right (by norm_num) (by omega))
  have h1 : dividerInRange N (d : Int) = true := by
    unfold dividerInRange
    rw [toUnsigned_natCast N d hdN, highest_half N hN]
    exact decide_eq_true hd
  have h2 : (d : Int) > 0 := by exact_mod_cast h0
  unfold TensorIntDivisor.construct
  simp [h1, h2]

theorem divide_natCast (N n : Nat) (s : TensorIntDivisor) (hN : 1 ≤ N)
    (hn : n < 2 ^ (N - 1) - 1) :
    s.divide N (n : Int) = some (s.divideBody N (n : Int)) := by
  have hnN : n < 2 ^ N :=
    lt_of_lt_of_le (by omega : n < 2 ^ (N - 1)) (Nat.pow_le_pow_right (by norm_num) (by omega))
  have h1 : numeratorInRange N (n : Int) = true := by
    unfold numeratorInRange
    rw [toUnsigned_natCast N n hnN, highest_half N hN]
    exact decide_eq_true hn
  unfold TensorIntDivisor.divide
  simp [h1]

/-- Construction from a valid divider followed by `divide` on a valid numerator returns
the floor quotient, for any width `N ≥ 1`. -/
theorem generalDivide_natCast (N d n : Nat) (hN : 1 ≤ N) (h0 : 0 < d)
    (hd : d < 2 ^ (N - 1) - 1) (hn : n < 2 ^ (N - 1) - 1) :
    generalDivide N (d : Int) (n : Int) = some ((n : Int) / (d : Int)) := by
  have hnN : n < 2 ^ N :=
    lt_of_lt_of_le (by omega : n < 2 ^ (N - 1)) (Nat.pow_le_pow_right (by norm_num) (by omega))
  unfold generalDivide
  rw [construct_natCast N d hN h0 hd, Option.some_bind, divide_natCast N n _ hN hn]
  unfold TensorIntDivisor.divideBody
  rw [quotientBits_init N d n h0 (by omega) hN hnN,
    toSigned_natCast N _ (lt_of_le_of_lt (Nat.div_le_self n d) (by omega))]
  norm_cast

/-! ## The magic-number search of the specialised divisor -/

/-- Doubling a dividend: quotient and remainder of `2 * x` from those of `x`. -/
theorem double_div_mod (a x : Nat) (ha : 0 < a) :
    (2 * x) / a = (if a ≤ 2 * (x % a) then 2 * (x / a) + 1 else 2 * (x / a)) ∧
      (2 * x) % a = (if a ≤ 2 * (x % a) then 2 * (x % a) - a else 2 * (x % a)) := by
  have hx := Nat.div_add_mod x a
  have hr : x % a < a := Nat.mod_lt _ ha
  generalize x / a = q at *
  generalize x % a = r at *
  split
  · rename_i h
    apply (Nat.div_mod_unique ha).2
    have e : a * (2 * q + 1) = 2 * (a * q) + a := by ring
    rw [e]
    omega
  · rename_i h
    apply (Nat.div_mod_unique ha).2
    have e : a * (2 * q) = 2 * (a * q) := by ring
    rw [e]
    omega

/-- One quotient/remainder update of the loop body is exact when the doubled quotient
still fits in 32 bits. -/
theorem pair_step (a x : Nat) (ha : 0 < a) (ha31 : a < 2 ^ 31) (hq : (2 * x) / a < 2 ^ 32) :
    (if umul 32 2 (x % a) ≥ a then uadd 32 (umul 32 2 (x / a)) 1 else umul 32 2 (x / a))
        = (2 * x) / a ∧
      (if umul 32 2 (x % a) ≥ a then usub 32 (umul 32 2 (x % a)) a else umul 32 2 (x % a))
        = (2 * x) % a := by
  obtain ⟨h1, h2⟩ := double_div_mod a x ha
  have hr : x % a < a := Nat.mod_lt _ ha
  rw [h1] at hq
  rw [h1, h2]
  generalize x / a = q at *
  generalize x % a = r at *
  have e1 : umul 32 2 r = 2 * r := by
    unfold umul
    exact Nat.mod_eq_of_lt (by omega)
  have hq2 : 2 * q < 2 ^ 32 := by
    split at hq <;> omega
  have e2 : umul 32 2 q = 2 * q := by
    unfold umul
    exact Nat.mod_eq_of_lt hq2
  rw [e1, e2]
  by_cases h : a ≤ 2 * r
  · rw [if_pos h] at hq
    rw [if_pos h, if_pos h, if_pos h, if_pos h]
    unfold uadd usub
    constructor
    · exact Nat.mod_eq_of_lt hq
    · have e3 : 2 * r + 2 ^ 32 - a = (2 * r - a) + 2 ^ 32 := by omega
      rw [e3, Nat.add_mod_right]
      exact Nat.mod_eq_of_lt (by omega)
  · rw [if_neg h, if_neg h, if_neg h, if_neg h]
    exact ⟨rfl, rfl⟩

theorem calcMagicBody_exact (d anc k : Nat) (s : MagicState) (hd : 0 < d) (hd31 : d < 2 ^ 31)
    (ha : 0 < anc) (ha31 : anc < 2 ^ 31) (hs : MagicExact d anc k s)
    (h1 : 2 ^ (31 + (k + 1)) / anc < 2 ^ 32) (h2 : 2 ^ (31 + (k + 1)) / d < 2 ^ 32) :
    MagicExact d anc (k + 1) (calcMagicBody d anc s) ∧
      (calcMagicBody d anc s).delta = d - 2 ^ (31 + (k + 1)) % d := by
  obtain ⟨hp, hq1, hr1, hq2, hr2⟩ := hs
  have e : 2 ^ (31 + (k + 1)) = 2 * 2 ^ (31 + k) := by
    rw [← pow_succ']
    rfl
  rw [e] at h1 h2 ⊢
  obtain ⟨a1, a2⟩ := pair_step anc (2 ^ (31 + k)) ha ha31 h1
  obtain ⟨b1, b2⟩ := pair_step d (2 ^ (31 + k)) hd hd31 h2
  have hm : 2 * 2 ^ (31 + k) % d < d := Nat.mod_lt _ hd
  unfold MagicExact calcMagicBody
  simp only [hq1, hr1, hq2, hr2, hp, a1, a2, b1, b2, e]
  refine ⟨⟨by push_cast; ring, trivial, trivial, trivial, trivial⟩, ?_⟩
  unfold usub
  have e3 : d + 2 ^ 32 - 2 * 2 ^ (31 + k) % d = (d - 2 * 2 ^ (31 + k) % d) + 2 ^ 32 := by omega
  rw [e3, Nat.add_mod_right]
  exact Nat.mod_eq_of_lt (by omega)

/-- The loop condition, on exact quotient and remainder: the search goes on exactly
while `2^p ≤ anc * delta`. -/
theorem calcMagicCond_iff (P anc : Nat) (s : MagicState) (ha : 0 < anc)
    (hq : s.q1 = P / anc) (hr : s.r1 = P % anc) :
    calcMagicCond s = true ↔ P ≤ anc * s.delta := by
  have hP := Nat.div_add_mod P anc
  have hlt : P % anc < anc := Nat.mod_lt _ ha
  unfold calcMagicCond
  rw [hq, hr]
  generalize s.delta = D
  generalize P / anc = q at *
  generalize P % anc = r at *
  simp only [Bool.or_eq_true, Bool.and_eq_true, decide_eq_true_eq]
  constructor
  · rintro (h | ⟨h, h0⟩)
    · have : anc * (q + 1) ≤ anc * D := Nat.mul_le_mul_left _ h
      rw [Nat.mul_add, Nat.mul_one] at this
      omega
    · subst h
      omega
  · intro h
    rcases Nat.lt_trichotomy q D with h1 | h1 | h1
    · exact Or.inl h1
    · subst h1
      exact Or.inr ⟨rfl, by omega⟩
    · exfalso
      have : anc * (D + 1) ≤ anc * q := Nat.mul_le_mul_left _ h1
      rw [Nat.mul_add, Nat.mul_one] at this
      omega

theorem calcMagic_iterations_bound (d k : Nat) (hd : 0 < d) (hd31 : d < 2 ^ 31)
    (h : 2 ^ (31 + (k + 1)) / d + 1 < 2 ^ 32) : k < 31 := by
  by_contra hk
  push_neg at hk
  have h1 : 2 ^ 32 ≤ 2 ^ (31 + (k + 1)) / d := by
    rw [Nat.le_div_iff_mul_le hd]
    calc 2 ^ 32 * d ≤ 2 ^ 32 * 2 ^ 31 := Nat.mul_le_mul_left _ hd31.le
      _ = 2 ^ 63 := by norm_num
      _ ≤ 2 ^ (31 + (k + 1)) := Nat.pow_le_pow_right (by norm_num) (by omega)
  omega

/-- The loop of `calcMagic`, started from exact values at `p = 31 + k`, ends on exact
values at the first `p = 31 + k1 > 31 + k` with `anc * delta < 2^p`, within the fuel. -/
theorem calcMagicLoop_spec (d anc : Nat) (hd : 2 ≤ d) (hd31 : d < 2 ^ 31) (ha : 0 < anc)
    (ha31 : anc < 2 ^ 31) :
    ∀ (fuel k : Nat) (s : MagicState), MagicExact d anc k s →
      2 ^ (31 + (k + 1)) / anc < 2 ^ 32 → 2 ^ (31 + (k + 1)) / d + 1 < 2 ^ 32 →
      31 ≤ k + fuel →
      ∃ k1 s1, calcMagicLoop d anc fuel s = some s1 ∧ k < k1 ∧ k1 ≤ 31 ∧
        MagicExact d anc k1 s1 ∧ s1.delta = d - 2 ^ (31 + k1) % d ∧
        anc * (d - 2 ^ (31 + k1) % d) < 2 ^ (31 + k1) ∧ 2 ^ (31 + k1) / d + 1 < 2 ^ 32 ∧
        ∀ j, k < j → j < k1 → 2 ^ (31 + j) ≤ anc * (d - 2 ^ (31 + j) % d) := by
  intro fuel
  induction fuel with
  | zero =>
    intro k s _ _ h2 hk
    have := calcMagic_iterations_bound d k (by omega) hd31 h2
    omega
  | succ fuel ih =>
    intro k s hs h1 h2 hk
    have hk31 := calcMagic_iterations_bound d k (by omega) hd31 h2
    obtain ⟨hex, hdelta⟩ := calcMagicBody_exact d anc k s (by omega) hd31 ha ha31 hs h1
      (by omega)
    have hiff := calcMagicCond_iff (2 ^ (31 + (k + 1))) anc (calcMagicBody d anc s) ha
      hex.2.1 hex.2.2.1
    rw [hdelta] at hiff
    unfold calcMagicLoop
    simp only
    by_cases hc : calcMagicCond (calcMagicBody d anc s) = true
    · rw [if_pos hc]
      have hF := hiff.1 hc
      have hD : d - 2 ^ (31 + (k + 1)) % d ≤ d := Nat.sub_le _ _
      have e : 2 ^ (31 + (k + 1 + 1)) = 2 * 2 ^ (31 + (k + 1)) := by
        rw [← pow_succ']
        rfl
      have g1 : 2 ^ (31 + (k + 1 + 1)) / anc < 2 ^ 32 := by
        have : 2 ^ (31 + (k + 1 + 1)) / anc ≤ 2 * (d - 2 ^ (31 + (k + 1)) % d) := by
          apply Nat.div_le_of_le_mul
          rw [e, Nat.mul_left_comm]
          exact Nat.mul_le_mul_left 2 hF
        omega
      have g2 : 2 ^ (31 + (k + 1 + 1)) / d + 1 < 2 ^ 32 := by
        have : 2 ^ (31 + (k + 1 + 1)) / d ≤ 2 * anc := by
          apply Nat.div_le_of_le_mul
          rw [e, Nat.mul_left_comm]
          apply Nat.mul_le_mul_left 2
          calc 2 ^ (31 + (k + 1)) ≤ anc * (d - 2 ^ (31 + (k + 1)) % d) := hF
            _ ≤ anc * d := Nat.mul_le_mul_left _ hD
            _ = d * anc := Nat.mul_comm _ _
        omega
      obtain ⟨k1, s1, r1, r2, r3, r4, r5, r6, r7, r8⟩ :=
        ih (k + 1) (calcMagicBody d anc s) hex g1 g2 (by omega)
      refine ⟨k1, s1, r1, by omega, r3, r4, r5, r6, r7, ?_⟩
      intro j hj1 hj2
      rcases Nat.eq_or_lt_of_le (Nat.succ_le_of_lt hj1) with hj | hj
      · rw [← hj]
        exact hF
      · exact r8 j hj hj2
    · rw [if_neg hc]
      have hF : anc * (d - 2 ^ (31 + (k + 1)) % d) < 2 ^ (31 + (k + 1)) := by
        by_contra hcon
        push_neg at hcon
        exact hc (hiff.2 hcon)
      refine ⟨k + 1, _, rfl, by omega, by omega, hex, hdelta, hF, h2, ?_⟩
      intro j hj1 hj2
      omega

/-- The value `anc` of `calcMagic`: `2^31 - 1 - 2^31 mod d`, at least `2^30`. -/
theorem anc_bounds (d : Nat) (hd : 2 ≤ d) (hd31 : d < 2 ^ 31) :
    2 ^ 30 ≤ 2 ^ 31 - 1 - 2 ^ 31 % d ∧ 2 ^ 31 - 1 - 2 ^ 31 % d < 2 ^ 31 := by
  have hm : 2 ^ 31 % d < d := Nat.mod_lt _ (by omega)
  constructor
  · by_cases h : d ≤ 2 ^ 30
    · omega
    · have e : 2 ^ 31 % d = 2 ^ 31 - d := by
        rw [Nat.mod_eq_sub_mod (by omega)]
        exact Nat.mod_eq_of_lt (by omega)
      omega
  · omega

theorem rem_via_mul (a : Nat) :
    usub 32 (2 ^ 31) (umul 32 (2 ^ 31 / a) a) = 2 ^ 31 % a := by
  have h1 := Nat.div_add_mod (2 ^ 31) a
  have h2 : 2 ^ 31 / a * a ≤ 2 ^ 31 := Nat.div_mul_le_self _ _
  rw [Nat.mul_comm] at h1
  unfold usub umul
  generalize 2 ^ 31 / a * a = x at *
  generalize 2 ^ 31 % a = r at *
  rw [Nat.mod_eq_of_lt (by omega : x < 2 ^ 32)]
  have e : 2 ^ 31 + 2 ^ 32 - x = r + 2 ^ 32 := by omega
  rw [e, Nat.add_mod_right]
  exact Nat.mod_eq_of_lt (by omega)

/-- The state of `calcMagic` on entry to the loop holds exact values for `p = 31`. -/
theorem calcMagicEntry_spec (d : Nat) (hd : 2 ≤ d) (hd31 : d < 2 ^ 31) :
    (calcMagicEntry (d : Int)).1 = d ∧
      (calcMagicEntry (d : Int)).2.1 = 2 ^ 31 - 1 - 2 ^ 31 % d ∧
      MagicExact d (2 ^ 31 - 1 - 2 ^ 31 % d) 0 (calcMagicEntry (d : Int)).2.2 := by
  obtain ⟨hlo, hhi⟩ := anc_bounds d hd hd31
  have hm : 2 ^ 31 % d < d := Nat.mod_lt _ (by omega)
  have e31 : (2147483648 : Nat) = 2 ^ 31 := by norm_num
  have hu : toUnsigned 32 (d : Int) = d := toUnsigned_natCast 32 d (by omega)
  have ht : uadd 32 (2 ^ 31) (d >>> 31) = 2 ^ 31 := by
    rw [Nat.shiftRight_eq_div_pow, Nat.div_eq_of_lt hd31]
    rfl
  have hanc : usub 32 (usub 32 (2 ^ 31) 1) (2 ^ 31 % d) = 2 ^ 31 - 1 - 2 ^ 31 % d := by
    have e1 : usub 32 (2 ^ 31) 1 = 2 ^ 31 - 1 := by rfl
    rw [e1]
    unfold usub
    have e2 : 2 ^ 31 - 1 + 2 ^ 32 - 2 ^ 31 % d = (2 ^ 31 - 1 - 2 ^ 31 % d) + 2 ^ 32 := by omega
    rw [e2, Nat.add_mod_right]
    exact Nat.mod_eq_of_lt (by omega)
  unfold calcMagicEntry MagicExact
  simp only [e31, hu, ht, hanc]
  refine ⟨trivial, trivial, by norm_num, by norm_num, ?_, by norm_num, ?_⟩
  · simpa using rem_via_mul (2 ^ 31 - 1 - 2 ^ 31 % d)
  · simpa using rem_via_mul d

/-- The constants stored by `calcMagic(d)` for `2 ≤ d < 2^31`, given fuel for 31
executions of the loop body: `magic = ⌊2^p / d⌋ + 1` and `shift = p - 32` for the first
`p = 31 + k ≥ 32` with `anc * (d - 2^p mod d) < 2^p`. -/
theorem calcMagic_spec (fuel d : Nat) (hf : 31 ≤ fuel) (hd : 2 ≤ d) (hd31 : d < 2 ^ 31) :
    ∃ k : Nat, 1 ≤ k ∧ k ≤ 31 ∧
      calcMagic fuel (d : Int)
        = some { magic := 2 ^ (31 + k) / d + 1, shift := (k : Int) - 1 } ∧
      2 ^ (31 + k) / d + 1 < 2 ^ 32 ∧
      (2 ^ 31 - 1 - 2 ^ 31 % d) * (d - 2 ^ (31 + k) % d) < 2 ^ (31 + k) ∧
      ∀ j : Nat, 0 < j → j < k →
        2 ^ (31 + j) ≤ (2 ^ 31 - 1 - 2 ^ 31 % d) * (d - 2 ^ (31 + j) % d) := by
  obtain ⟨hlo, hhi⟩ := anc_bounds d hd hd31
  obtain ⟨e1, e2, e3⟩ := calcMagicEntry_spec d hd hd31
  have h1 : 2 ^ (31 + (0 + 1)) / (2 ^ 31 - 1 - 2 ^ 31 % d) < 2 ^ 32 := by
    have : 2 ^ (31 + (0 + 1)) / (2 ^ 31 - 1 - 2 ^ 31 % d) ≤ 4 := by
      apply Nat.div_le_of_le_mul
      have e : (2 : Nat) ^ (31 + (0 + 1)) = 4 * 2 ^ 30 := by norm_num
      rw [e]
      omega
    omega
  have h2 : 2 ^ (31 + (0 + 1)) / d + 1 < 2 ^ 32 := by
    have : 2 ^ (31 + (0 + 1)) / d ≤ 2 ^ 31 := by
      apply Nat.div_le_of_le_mul
      have : (2 : Nat) ^ (31 + (0 + 1)) = 2 * 2 ^ 31 := by norm_num
      rw [this]
      exact Nat.mul_le_mul_right _ hd
    omega
  obtain ⟨k, s, r1, r2, r3, r4, _, r6, r7, r8⟩ :=
    calcMagicLoop_spec d (2 ^ 31 - 1 - 2 ^ 31 % d) hd hd31 (by omega) hhi fuel 0
      (calcMagicEntry (d : Int)).2.2 e3 h1 h2 (by omega)
  refine ⟨k, by omega, r3, ?_, r7, r6, r8⟩
  unfold calcMagic
  simp only [e1, e2, r1, Option.map_some']
  obtain ⟨hp, _, _, hq2, _⟩ := r4
  have em : uadd 32 s.q2 1 = 2 ^ (31 + k) / d + 1 := by
    rw [hq2]
    exact Nat.mod_eq_of_lt r7
  have es : s.p - 32 = (k : Int) - 1 := by
    rw [hp]
    ring
  rw [em, es]

/-- The host `divide` of a specialised divisor holding `magic = ⌊2^p / d⌋ + 1` and
`shift = p - 32`, on a non-negative numerator: the floor quotient. -/
theorem specialized_divide_nat (d n k : Nat) (hd : 2 ≤ d) (hd31 : d < 2 ^ 31)
    (hn : n < 2 ^ 31) (hk : 1 ≤ k) (hm : 2 ^ (31 + k) / d + 1 < 2 ^ 32)
    (hF : (2 ^ 31 - 1 - 2 ^ 31 % d) * (d - 2 ^ (31 + k) % d) < 2 ^ (31 + k)) :
    TensorIntDivisor_int32_true.divide
      { magic := 2 ^ (31 + k) / d + 1, shift := (k : Int) - 1 } (n : Int)
      = ((n / d : Nat) : Int) := by
  obtain ⟨hlo, hhi⟩ := anc_bounds d hd hd31
  have hd0 : 0 < d := by omega
  have hquot : (2 ^ (31 + k) / d + 1) * n / 2 ^ (31 + k) = n / d := by
    apply magic_div _ _ _ hd0
    have hr : n % d < d := Nat.mod_lt _ hd0
    generalize 2 ^ (31 + k) = P at *
    generalize hD : d - P % d = D at *
    by_cases hc : n ≤ 2 ^ 31 - 1 - 2 ^ 31 % d
    · calc D * n ≤ D * (2 ^ 31 - 1 - 2 ^ 31 % d) := Nat.mul_le_mul_left _ hc
        _ = (2 ^ 31 - 1 - 2 ^ 31 % d) * D := Nat.mul_comm _ _
        _ < P := hF
        _ = P * 1 := (Nat.mul_one P).symm
        _ ≤ P * (d - n % d) := Nat.mul_le_mul_left _ (by omega)
    · push_neg at hc
      have hR : 2 ^ 31 % d < d := Nat.mod_lt _ hd0
      have hQ := Nat.div_add_mod (2 ^ 31) d
      have hnr : n % d = n - d * (2 ^ 31 / d) := by
        have e : n = d * (2 ^ 31 / d) + (n - d * (2 ^ 31 / d)) := by omega
        conv_lhs => rw [e]
        rw [Nat.mul_add_mod]
        exact Nat.mod_eq_of_lt (by omega)
      have h2 : 2 ≤ d - n % d := by omega
      calc D * n ≤ D * (2 * (2 ^ 31 - 1 - 2 ^ 31 % d)) := Nat.mul_le_mul_left _ (by omega)
        _ = 2 * ((2 ^ 31 - 1 - 2 ^ 31 % d) * D) := by ring
        _ < 2 * P := by omega
        _ = P * 2 := Nat.mul_comm _ _
        _ ≤ P * (d - n % d) := Nat.mul_le_mul_left _ h2
  have hmn : (2 ^ (31 + k) / d + 1) * n < 2 ^ 64 := by
    calc (2 ^ (31 + k) / d + 1) * n < 2 ^ 32 * 2 ^ 31 := Nat.mul_lt_mul'' hm hn
      _ ≤ 2 ^ 64 := by norm_num
  have hhi32 : (2 ^ (31 + k) / d + 1) * n / 2 ^ 32 < 2 ^ 31 := by
    rw [Nat.div_lt_iff_lt_mul (by norm_num)]
    calc (2 ^ (31 + k) / d + 1) * n < 2 ^ 32 * 2 ^ 31 := Nat.mul_lt_mul'' hm hn
      _ = 2 ^ 31 * 2 ^ 32 := Nat.mul_comm _ _
  unfold TensorIntDivisor_int32_true.divide umul
  simp only
  have es : ((k : Int) - 1).toNat = k - 1 := by omega
  rw [toUnsigned_natCast 64 n (by omega), Nat.mod_eq_of_lt hmn, es, Nat.shiftRight_eq_div_pow,
    Nat.shiftRight_eq_div_pow, Nat.mod_eq_of_lt (by omega), Nat.div_div_eq_div_mul]
  have ep : 2 ^ 32 * 2 ^ (k - 1) = 2 ^ (31 + k) := by
    rw [← pow_add]
    congr 1
    omega
  rw [ep, hquot]
  exact toSigned_natCast 32 _ (lt_of_le_of_lt (Nat.div_le_self n d) (by omega))

/-- Construction of the specialisation from `2 ≤ d < 2^31` followed by the host `divide`
on `0 ≤ n < 2^31` returns the floor quotient, given fuel for 31 loop iterations. -/
theorem specializedDivide_natCast (fuel d n : Nat) (hf : 31 ≤ fuel) (hd : 2 ≤ d)
    (hd31 : d < 2 ^ 31) (hn : n < 2 ^ 31) :
    specializedDivide fuel (d : Int) (n : Int) = Outcome.ok ((n / d : Nat) : Int) := by
  obtain ⟨k, hk1, _, hc, hm, hF, _⟩ := calcMagic_spec fuel d hf hd hd31
  have hge : (d : Int) ≥ 2 := by exact_mod_cast hd
  unfold specializedDivide TensorIntDivisor_int32_true.construct
  simp only [hge, not_true_eq_false, if_false, hc]
  rw [specialized_divide_nat d n k hd hd31 hn hk1 hm hF]

/-! ## The accelerator primitives on non-negative arguments -/

theorem hip_clz_loop_zero (n : Nat) (c : Int) : hip_clz_loop n c 0 = c + n := by
  induction n generalizing c with
  | zero => simp [hip_clz_loop]
  | succ n ih =>
    unfold hip_clz_loop
    simp only [Int.zero_tmod, Int.zero_tdiv, if_true]
    rw [ih]
    push_cast
    ring

/-- On a positive argument below `2^n` the loop of `__hip_clz` returns the position
gap between bit `n - 1` and the highest set bit. -/
theorem hip_clz_loop_spec (n : Nat) : ∀ (c : Int) (v : Nat), 0 < v → v < 2 ^ n →
    ∃ r : Nat, hip_clz_loop n c (v : Int) = (r : Int) ∧ r < n ∧ 2 ^ (n - 1 - r) ≤ v ∧
      v < 2 ^ (n - r) := by
  induction n with
  | zero =>
    intro c v h0 hv
    simp at hv
    omega
  | succ n ih =>
    intro c v h0 hv
    have e1 : Int.tdiv (v : Int) 2 = ((v / 2 : Nat) : Int) := (Int.ofNat_tdiv v 2).symm
    have e2 : Int.tmod (v : Int) 2 = ((v % 2 : Nat) : Int) := (Int.ofNat_tmod v 2).symm
    unfold hip_clz_loop
    rw [e1, e2]
    rcases Nat.eq_zero_or_pos (v / 2) with hz | hp
    · have hv1 : v = 1 := by omega
      subst hv1
      refine ⟨n, ?_, by omega, ?_, ?_⟩
      · simp [hip_clz_loop_zero]
      · simp
      · simp
    · have hlt : v / 2 < 2 ^ n := by
        rw [pow_succ] at hv
        omega
      obtain ⟨r, hr, hrn, hlo, hhi⟩ :=
        ih (if ((v % 2 : Nat) : Int) = 0 then c + 1 else 0) (v / 2) hp hlt
      refine ⟨r, hr, by omega, ?_, ?_⟩
      · have e : n + 1 - 1 - r = (n - 1 - r) + 1 := by omega
        rw [e, pow_succ]
        omega
      · have e : n + 1 - r = (n - r) + 1 := by omega
        rw [e, pow_succ]
        omega

/-- The bracket `2^(n-1-c) ≤ v < 2^(n-c)` determines the count `c < n`. -/
theorem clz_bracket_unique (n v c r : Nat) (hc : c < n) (hr : r < n)
    (hc1 : 2 ^ (n - 1 - c) ≤ v) (hc2 : v < 2 ^ (n - c))
    (hr1 : 2 ^ (n - 1 - r) ≤ v) (hr2 : v < 2 ^ (n - r)) : c = r := by
  have h1 := (Nat.pow_lt_pow_iff_right (by norm_num : 1 < 2)).1 (lt_of_le_of_lt hc1 hr2)
  have h2 := (Nat.pow_lt_pow_iff_right (by norm_num : 1 < 2)).1 (lt_of_le_of_lt hr1 hc2)
  omega

/-- On a positive `int` argument `__hip_clz` agrees with the host leading-zero count. -/
theorem hip_clz_natCast (v : Nat) (h0 : 0 < v) (hv : v < 2 ^ 31) :
    __hip_clz (v : Int) = (count_leading_zeros 32 v : Nat) := by
  have hv32 : v < 2 ^ 32 := by omega
  obtain ⟨r, hr, hrn, hlo, hhi⟩ := hip_clz_loop_spec 32 0 v h0 hv32
  obtain ⟨hc, hclo, hchi⟩ := clzFrom_spec 32 v h0 hv32
  unfold __hip_clz count_leading_zeros
  rw [hr, clz_bracket_unique 32 v _ r hc hrn hclo hchi hlo hhi]

theorem count_leading_zeros_hcc_natCast (v : Nat) (h0 : 0 < v) (hv : v < 2 ^ 31) :
    count_leading_zeros_hcc v = (count_leading_zeros 32 v : Nat) := by
  unfold count_leading_zeros_hcc
  rw [toSigned_natCast 32 v hv, hip_clz_natCast v h0 hv]

theorem hip_umulhi_eq (a b : Nat) (ha : a < 2 ^ 32) (hb : b < 2 ^ 32) :
    __hip_umulhi a b = a * b / 2 ^ 32 := by
  have hab : a * b < 2 ^ 64 := by
    calc a * b < 2 ^ 32 * 2 ^ 32 := Nat.mul_lt_mul'' ha hb
      _ = 2 ^ 64 := by norm_num
  unfold __hip_umulhi umul
  rw [Nat.mod_eq_of_lt hab, Nat.shiftRight_eq_div_pow]
  apply Nat.mod_eq_of_lt
  rw [Nat.div_lt_iff_lt_mul (by norm_num)]
  calc a * b < 2 ^ 64 := hab
    _ = 2 ^ 32 * 2 ^ 32 := by norm_num

theorem muluh_hcc_natCast (m n : Nat) (hn : n < 2 ^ 32) :
    muluh_hcc m (n : Int) = muluh 32 m (n : Int) := by
  unfold muluh_hcc muluh __hip_umulhi
  rw [toUnsigned_natCast 32 n hn, toUnsigned_natCast (2 * 32) n (by omega)]

theorem log_div_hcc_natCast (d : Nat) (h0 : 0 < d) (hd : d < 2 ^ 31) :
    log_div_hcc (d : Int) = log_div 32 (d : Int) := by
  unfold log_div_hcc log_div
  rw [toUnsigned_natCast 32 d (by omega), count_leading_zeros_hcc_natCast d h0 hd]
  rfl

/-! ## The software 64-bit multiply-high -/

theorem and_lo_eq (x : Nat) : x &&& 4294967295 = x % 2 ^ 32 :=
  Nat.and_pow_two_sub_one_eq_mod x 32

theorem and_hi_eq (x : Nat) :
    x &&& 18446744069414584320 = 2 ^ 32 * (x / 2 ^ 32 % 2 ^ 32) := by
  have hhi : (18446744069414584320 : Nat) = (2 ^ 32 - 1) <<< 32 := by decide
  apply Nat.eq_of_testBit_eq
  intro i
  rw [hhi, ← Nat.shiftRight_eq_div_pow]
  simp only [Nat.testBit_and, Nat.testBit_shiftLeft, Nat.testBit_two_pow_sub_one,
    Nat.testBit_mul_pow_two, Nat.testBit_mod_two_pow, Nat.testBit_shiftRight]
  by_cases h : 32 ≤ i
  · have e : 32 + (i - 32) = i := by omega
    rw [e]
    simp only [ge_iff_le, h, decide_True, Bool.true_and]
    exact Bool.and_comm _ _
  · simp [h]

theorem and_hi_shr (x : Nat) : (x &&& 18446744069414584320) >>> 32 = x / 2 ^ 32 % 2 ^ 32 := by
  rw [and_hi_eq, Nat.shiftRight_eq_div_pow, Nat.mul_div_cancel_left _ (by norm_num)]

theorem half_mul_bound (a b : Nat) (ha : a < 2 ^ 32) (hb : b < 2 ^ 32) :
    a * b ≤ 18446744065119617025 := by
  calc a * b ≤ (2 ^ 32 - 1) * (2 ^ 32 - 1) := Nat.mul_le_mul (by omega) (by omega)
    _ = 18446744065119617025 := by norm_num

/-- The carry arithmetic of `__hip_umul64hi` on the four partial products. -/
theorem umul64hi_arith (o0 o1 o2 o3 : Nat) (h0 : o0 ≤ 18446744065119617025)
    (h1 : o1 ≤ 18446744065119617025) (h2 : o2 ≤ 18446744065119617025)
    (h3 : o3 ≤ 18446744065119617025) (s1 s2 s3 : Nat)
    (hs1 : s1 = o0 / 2 ^ 32 % 2 ^ 32 + o1 % 2 ^ 32 + o2 % 2 ^ 32)
    (hs2 : s2 = s1 % 2 ^ 64 / 2 ^ 32 % 2 ^ 32 + o1 / 2 ^ 32 % 2 ^ 32 + o2 / 2 ^ 32 % 2 ^ 32
      + o3 % 2 ^ 32)
    (hs3 : s3 = s2 % 2 ^ 64 / 2 ^ 32 % 2 ^ 32 + o3 / 2 ^ 32 % 2 ^ 32) :
    s1 < 2 ^ 64 ∧ s2 < 2 ^ 64 ∧ s3 < 2 ^ 64 ∧
      2 ^ 32 * (s3 % 2 ^ 64 * 2 ^ 32 % 2 ^ 64 / 2 ^ 32 % 2 ^ 32) + s2 % 2 ^ 64 % 2 ^ 32 % 2 ^ 32
        = (2 ^ 64 * o3 + 2 ^ 32 * (o1 + o2) + o0) / 2 ^ 64 := by
  have b1 : s1 < 3 * 2 ^ 32 := by omega
  have b2 : s2 < 4 * 2 ^ 32 := by omega
  have e1 : s1 % 2 ^ 64 / 2 ^ 32 % 2 ^ 32 = s1 / 2 ^ 32 := by omega
  have e2 : s2 % 2 ^ 64 / 2 ^ 32 % 2 ^ 32 = s2 / 2 ^ 32 := by omega
  have e0 : o0 / 2 ^ 32 % 2 ^ 32 = o0 / 2 ^ 32 := by omega
  have e3 : o3 / 2 ^ 32 % 2 ^ 32 = o3 / 2 ^ 32 := by omega
  have e4 : o1 / 2 ^ 32 % 2 ^ 32 = o1 / 2 ^ 32 := by omega
  have e5 : o2 / 2 ^ 32 % 2 ^ 32 = o2 / 2 ^ 32 := by omega
  rw [e1, e4, e5] at hs2
  rw [e2, e3] at hs3
  rw [e0] at hs1
  have b3 : s3 < 2 ^ 32 := by omega
  have e6 : s3 % 2 ^ 64 * 2 ^ 32 % 2 ^ 64 / 2 ^ 32 % 2 ^ 32 = s3 := by omega
  rw [e6]
  refine ⟨by omega, by omega, by omega, ?_⟩
  omega

/-- The schoolbook multiplication of `__hip_umul64hi`: none of its three sums reaches
`2^64`, and the value returned is the high half of the exact product. -/
theorem umul64hi_steps_spec (x y : Nat) (hx : x < 2 ^ 64) (hy : y < 2 ^ 64) :
    (umul64hi_steps x y).1 < 2 ^ 64 ∧ (umul64hi_steps x y).2.1 < 2 ^ 64 ∧
      (umul64hi_steps x y).2.2.1 < 2 ^ 64 ∧ (umul64hi_steps x y).2.2.2 = x * y / 2 ^ 64 := by
  have hb : x % 2 ^ 32 < 2 ^ 32 := Nat.mod_lt _ (by norm_num)
  have ha : x / 2 ^ 32 % 2 ^ 32 < 2 ^ 32 := Nat.mod_lt _ (by norm_num)
  have hd : y % 2 ^ 32 < 2 ^ 32 := Nat.mod_lt _ (by norm_num)
  have hc : y / 2 ^ 32 % 2 ^ 32 < 2 ^ 32 := Nat.mod_lt _ (by norm_num)
  have hxe : x = 2 ^ 32 * (x / 2 ^ 32 % 2 ^ 32) + x % 2 ^ 32 := by omega
  have hye : y = 2 ^ 32 * (y / 2 ^ 32 % 2 ^ 32) + y % 2 ^ 32 := by omega
  unfold umul64hi_steps umul ushl
  simp only [and_lo_eq, and_hi_shr]
  generalize x % 2 ^ 32 = b at *
  generalize x / 2 ^ 32 % 2 ^ 32 = a at *
  generalize y % 2 ^ 32 = d at *
  generalize y / 2 ^ 32 % 2 ^ 32 = c at *
  have hxy : x * y = 2 ^ 64 * (a * c) + 2 ^ 32 * (b * c + a * d) + b * d := by
    rw [hxe, hye]
    ring
  have h0 := half_mul_bound b d hb hd
  have h1 := half_mul_bound b c hb hc
  have h2 := half_mul_bound a d ha hd
  have h3 := half_mul_bound a c ha hc
  rw [hxy]
  generalize b * d = o0 at *
  generalize b * c = o1 at *
  generalize a * d = o2 at *
  generalize a * c = o3 at *
  have m0 : o0 % 2 ^ 64 = o0 := Nat.mod_eq_of_lt (by omega)
  have m1 : o1 % 2 ^ 64 = o1 := Nat.mod_eq_of_lt (by omega)
  have m2 : o2 % 2 ^ 64 = o2 := Nat.mod_eq_of_lt (by omega)
  have m3 : o3 % 2 ^ 64 = o3 := Nat.mod_eq_of_lt (by omega)
  simp only [m0, m1, m2, m3, and_hi_eq, Nat.shiftLeft_eq]
  rw [← Nat.mul_add_lt_is_or (Nat.mod_lt _ (by norm_num))]
  exact umul64hi_arith o0 o1 o2 o3 h0 h1 h2 h3 _ _ _ rfl rfl rfl

/-! ## Further facts about the constructor of the general divisor -/

theorem valid_natCast (N a : Nat) (h : (a : Int) < 2 ^ (N - 1) - 1) : a < 2 ^ (N - 1) - 1 := by
  have e : ((2 : Int) ^ (N - 1) - 1) = ((2 ^ (N - 1) - 1 : Nat) : Int) := by
    have : 1 ≤ 2 ^ (N - 1) := Nat.one_le_two_pow
    push_cast [this]
    rfl
  rw [e] at h
  exact_mod_cast h

/-- The constants of a constructed general divisor: `log_div = l` brackets the divider,
and the multiplier is the exact integer `⌊2^(N+l) / d⌋ - 2^N + 1`, between 1 and
`2^N - 1`. -/
theorem init_spec (N d : Nat) (hN : 1 ≤ N) (h0 : 0 < d) (hd : d ≤ 2 ^ (N - 1)) :
    ∃ l : Nat, log_div N (d : Int) = (l : Int) ∧ l < N ∧ d ≤ 2 ^ l ∧
      (1 ≤ l → 2 ^ (l - 1) < d) ∧
      (TensorIntDivisor.init N (d : Int)).multiplier + 2 ^ N = 2 ^ (N + l) / d + 1 ∧
      1 ≤ (TensorIntDivisor.init N (d : Int)).multiplier ∧
      (TensorIntDivisor.init N (d : Int)).multiplier < 2 ^ N := by
  have hdN : d < 2 ^ N :=
    lt_of_le_of_lt hd (Nat.pow_lt_pow_right (by norm_num) (by omega))
  obtain ⟨l, hl, _, hle, hgt⟩ := log_div_spec N d h0 hdN
  have hlN1 : l < N := by
    rcases Nat.eq_zero_or_pos l with h | h
    · omega
    · have h1 : 2 ^ (l - 1) < 2 ^ (N - 1) := lt_of_lt_of_le (hgt h) hd
      have := (Nat.pow_lt_pow_iff_right (by norm_num : 1 < 2)).1 h1
      omega
  have hmul : (TensorIntDivisor.init N (d : Int)).multiplier
      = computeMultiplier N (l : Int) (d : Int) := by
    unfold TensorIntDivisor.init
    simp only [hl]
  rw [hmul]
  exact ⟨l, hl, hlN1, hle, hgt, computeMultiplier_spec N d l h0 hlN1 hle hgt⟩

/-- A bracket `2^(l-1) < d ≤ 2^l` identifies `l` as the ceiling of the binary logarithm. -/
theorem clog_of_bracket (d l : Nat) (hle : d ≤ 2 ^ l) (hgt : 1 ≤ l → 2 ^ (l - 1) < d) :
    Nat.clog 2 d = l := by
  apply le_antisymm ((Nat.le_pow_iff_clog_le (by norm_num)).1 hle)
  by_contra hlt
  push_neg at hlt
  have h1 : Nat.clog 2 d ≤ l - 1 := by omega
  have h2 := (Nat.le_pow_iff_clog_le (by norm_num : 1 < 2)).2 h1
  have h3 := hgt (by omega)
  omega

/-- The adjusted `log_div` in terms of the leading-zero count `c`: `N - 1 - c` when the
divider equals `2^(N-1-c)`, and `N - c` otherwise. -/
theorem log_div_eq_ite (N d : Nat) (h0 : 0 < d) (hd : d < 2 ^ N) :
    count_leading_zeros N d < N ∧ 2 ^ (N - 1 - count_leading_zeros N d) ≤ d ∧
      d < 2 ^ (N - count_leading_zeros N d) ∧
      log_div N (d : Int) = ((if 2 ^ (N - 1 - count_leading_zeros N d) = d
        then N - 1 - count_leading_zeros N d else N - count_leading_zeros N d : Nat) : Int) := by
  obtain ⟨hc, hlo, hhi⟩ := clzFrom_spec N d h0 hd
  refine ⟨hc, hlo, hhi, ?_⟩
  unfold log_div count_leading_zeros
  simp only [toUnsigned_natCast N d hd]
  generalize clzFrom N d = c at hc hlo hhi
  have e1 : ((N : Int) - (c : Int) - 1).toNat = N - 1 - c := by omega
  have hlt : 2 ^ (N - 1 - c) < 2 ^ N := Nat.pow_lt_pow_right (by norm_num) (by omega)
  rw [e1]
  unfold ushl
  rw [one_shiftLeft_eq, Nat.mod_eq_of_lt hlt]
  by_cases h : 2 ^ (N - 1 - c) = d
  · rw [if_pos h, if_pos h]
    omega
  · rw [if_neg h, if_neg h]
    omega

theorem construct_hcc_natCast (d : Nat) (h0 : 0 < d) (hd : d < 2 ^ 31) :
    TensorIntDivisor.construct_hcc (d : Int) = TensorIntDivisor.construct 32 (d : Int) := by
  unfold TensorIntDivisor.construct_hcc TensorIntDivisor.construct TensorIntDivisor.init_hcc
    TensorIntDivisor.init
  rw [log_div_hcc_natCast d h0 hd]

theorem divide_hcc_natCast (s : TensorIntDivisor) (n : Nat) (hn : n < 2 ^ 32) :
    s.divide_hcc (n : Int) = s.divide 32 (n : Int) := by
  unfold TensorIntDivisor.divide_hcc TensorIntDivisor.divide TensorIntDivisor.divideBody
    TensorIntDivisor.quotientBits
  rw [muluh_hcc_natCast s.multiplier n hn]

theorem specialized_divide_hcc_natCast (s : TensorIntDivisor_int32_true) (n : Nat)
    (hn : n < 2 ^ 32) : s.divide_hcc (n : Int) = s.divide (n : Int) := by
  unfold TensorIntDivisor_int32_true.divide_hcc TensorIntDivisor_int32_true.divide __hip_umulhi
  rw [toUnsigned_natCast 32 n hn, toUnsigned_natCast 64 n (by omega)]

/-! ## The iterations of the magic-number search -/

theorem calcMagicIter_p (ad anc : Nat) (s : MagicState) (j : Nat) :
    ((calcMagicBody ad anc)^[j] s).p = s.p + (j : Int) := by
  induction j with
  | zero => simp
  | succ j ih =>
    rw [Function.iterate_succ_apply']
    show ((calcMagicBody ad anc)^[j] s).p + 1 = s.p + ((j + 1 : Nat) : Int)
    rw [ih]
    push_cast
    ring

theorem calcMagicIter_delta (ad anc : Nat) (s : MagicState) (j : Nat) (hj : 1 ≤ j) :
    ((calcMagicBody ad anc)^[j] s).delta = usub 32 ad ((calcMagicBody ad anc)^[j] s).r2 := by
  obtain ⟨i, rfl⟩ : ∃ i, j = i + 1 := ⟨j - 1, by omega⟩
  rw [Function.iterate_succ_apply']
  rfl

/-- The states visited by the loop of `calcMagic` are the iterates of its body; it
returns the first iterate on which the loop condition is false. -/
theorem calcMagicLoop_trace (ad anc : Nat) : ∀ (fuel : Nat) (s s1 : MagicState),
    calcMagicLoop ad anc fuel s = some s1 →
    ∃ j : Nat, 1 ≤ j ∧ j ≤ fuel ∧ s1 = (calcMagicBody ad anc)^[j] s ∧
      (∀ i : Nat, 1 ≤ i → i < j → calcMagicCond ((calcMagicBody ad anc)^[i] s) = true) ∧
      calcMagicCond s1 = false := by
  intro fuel
  induction fuel with
  | zero =>
    intro s s1 h
    simp [calcMagicLoop] at h
  | succ fuel ih =>
    intro s s1 h
    unfold calcMagicLoop at h
    simp only at h
    by_cases hc : calcMagicCond (calcMagicBody ad anc s) = true
    · rw [if_pos hc] at h
      obtain ⟨j, hj1, hjf, hs1, hall, hfin⟩ := ih _ _ h
      refine ⟨j + 1, by omega, by omega, ?_, ?_, hfin⟩
      · rw [Function.iterate_succ_apply]
        exact hs1
      · intro i hi1 hij
        obtain ⟨i1, rfl⟩ : ∃ i1, i = i1 + 1 := ⟨i - 1, by omega⟩
        rw [Function.iterate_succ_apply]
        rcases Nat.eq_zero_or_pos i1 with h0 | h0
        · subst h0
          simpa using hc
        · exact hall i1 h0 (by omega)
    · rw [if_neg hc] at h
      have hs := Option.some.inj h
      subst hs
      refine ⟨1, le_refl _, by omega, rfl, ?_, by simpa using hc⟩
      intro i h1 h2
      omega

/-- When the loop condition holds at `P = 2^p`, the doubled quotients still fit. -/
theorem bounds_of_continue (d anc P : Nat) (hd0 : 0 < d) (hd31 : d < 2 ^ 31) (ha0 : 0 < anc)
    (ha31 : anc < 2 ^ 31) (hF : P ≤ anc * (d - P % d)) :
    2 * P / anc < 2 ^ 32 ∧ 2 * P / d + 1 < 2 ^ 32 := by
  have hD : d - P % d ≤ d := Nat.sub_le _ _
  constructor
  · have : 2 * P / anc ≤ 2 * (d - P % d) := by
      apply Nat.div_le_of_le_mul
      rw [Nat.mul_left_comm]
      exact Nat.mul_le_mul_left 2 hF
    omega
  · have : 2 * P / d ≤ 2 * anc := by
      apply Nat.div_le_of_le_mul
      rw [Nat.mul_left_comm]
      apply Nat.mul_le_mul_left 2
      calc P ≤ anc * (d - P % d) := hF
        _ ≤ anc * d := Nat.mul_le_mul_left _ hD
        _ = d * anc := Nat.mul_comm _ _
    omega

/-- The exact quotients met by the search fit in 32 bits up to its last iteration. -/
theorem magic_quot_bounds (d k : Nat) (hd : 2 ≤ d) (hd31 : d < 2 ^ 31)
    (hmin : ∀ j : Nat, 0 < j → j < k →
      2 ^ (31 + j) ≤ (2 ^ 31 - 1 - 2 ^ 31 % d) * (d - 2 ^ (31 + j) % d)) :
    ∀ i : Nat, i ≤ k → 2 ^ (31 + i) / (2 ^ 31 - 1 - 2 ^ 31 % d) < 2 ^ 32 ∧
      2 ^ (31 + i) / d + 1 < 2 ^ 32 := by
  obtain ⟨hlo, hhi⟩ := anc_bounds d hd hd31
  intro i hi
  rcases Nat.lt_or_ge i 2 with h2 | h2
  · have e : (2 : Nat) ^ (31 + i) ≤ 2 ^ 32 := Nat.pow_le_pow_right (by norm_num) (by omega)
    constructor
    · have : 2 ^ (31 + i) / (2 ^ 31 - 1 - 2 ^ 31 % d) ≤ 4 := by
        apply Nat.div_le_of_le_mul
        omega
      omega
    · have : 2 ^ (31 + i) / d ≤ 2 ^ 31 := by
        apply Nat.div_le_of_le_mul
        have : 2 * 2 ^ 31 ≤ d * 2 ^ 31 := Nat.mul_le_mul_right _ hd
        omega
      omega
  · obtain ⟨i1, rfl⟩ : ∃ i1, i = i1 + 1 := ⟨i - 1, by omega⟩
    have hF := hmin i1 (by omega) (by omega)
    have e : (2 : Nat) ^ (31 + (i1 + 1)) = 2 * 2 ^ (31 + i1) := by
      rw [← pow_succ']
      rfl
    rw [e]
    exact bounds_of_continue d _ _ (by omega) hd31 (by omega) hhi hF

/-- Every state the search visits, up to its last iteration `k`, holds exact values. -/
theorem calcMagicIter_exact (d k : Nat) (hd : 2 ≤ d) (hd31 : d < 2 ^ 31)
    (hmin : ∀ j : Nat, 0 < j → j < k →
      2 ^ (31 + j) ≤ (2 ^ 31 - 1 - 2 ^ 31 % d) * (d - 2 ^ (31 + j) % d)) :
    ∀ i : Nat, i ≤ k → MagicExact d (2 ^ 31 - 1 - 2 ^ 31 % d) i
      ((calcMagicBody d (2 ^ 31 - 1 - 2 ^ 31 % d))^[i] (calcMagicEntry (d : Int)).2.2) := by
  obtain ⟨hlo, hhi⟩ := anc_bounds d hd hd31
  obtain ⟨_, _, e3⟩ := calcMagicEntry_spec d hd hd31
  intro i
  induction i with
  | zero =>
    intro _
    exact e3
  | succ i ih =>
    intro hi
    obtain ⟨b1, b2⟩ := magic_quot_bounds d k hd hd31 hmin (i + 1) hi
    rw [Function.iterate_succ_apply']
    exact (calcMagicBody_exact d _ i _ (by omega) hd31 (by omega) hhi (ih (by omega)) b1
      (by omega)).1

theorem double_quot_lt (a X : Nat) (ha : 0 < a) (h : 2 * X / a < 2 ^ 32) :
    2 * (X / a) + 1 < 2 ^ 32 := by
  have h1 : 2 * (X / a) ≤ 2 * X / a := by
    rw [Nat.le_div_iff_mul_le ha, Nat.mul_assoc]
    exact Nat.mul_le_mul_left 2 (Nat.div_mul_le_self X a)
  omega

/-- A run of `calcMagic(d)` for `2 ≤ d < 2^31` with fuel for 31 iterations: the loop
performs `k` executions of its body, `1 ≤ k ≤ 31`, every visited state is exact, the loop
condition is true after each of the first `k - 1` executions and false after the last. -/
theorem calcMagic_run (fuel d : Nat) (hf : 31 ≤ fuel) (hd : 2 ≤ d) (hd31 : d < 2 ^ 31) :
    ∃ k : Nat, 1 ≤ k ∧ k ≤ 31 ∧
      calcMagicLoop d (2 ^ 31 - 1 - 2 ^ 31 % d) fuel (calcMagicEntry (d : Int)).2.2
        = some ((calcMagicBody d (2 ^ 31 - 1 - 2 ^ 31 % d))^[k]
            (calcMagicEntry (d : Int)).2.2) ∧
      (∀ i : Nat, i ≤ k → MagicExact d (2 ^ 31 - 1 - 2 ^ 31 % d) i
        ((calcMagicBody d (2 ^ 31 - 1 - 2 ^ 31 % d))^[i] (calcMagicEntry (d : Int)).2.2)) ∧
      (∀ i : Nat, i ≤ k → 2 ^ (31 + i) / (2 ^ 31 - 1 - 2 ^ 31 % d) < 2 ^ 32 ∧
        2 ^ (31 + i) / d + 1 < 2 ^ 32) ∧
      (∀ i : Nat, 1 ≤ i → i < k → calcMagicCond
        ((calcMagicBody d (2 ^ 31 - 1 - 2 ^ 31 % d))^[i] (calcMagicEntry (d : Int)).2.2)
          = true) ∧
      calcMagicCond
        ((calcMagicBody d (2 ^ 31 - 1 - 2 ^ 31 % d))^[k] (calcMagicEntry (d : Int)).2.2)
          = false := by
  obtain ⟨hlo, hhi⟩ := anc_bounds d hd hd31
  obtain ⟨_, _, e3⟩ := calcMagicEntry_spec d hd hd31
  obtain ⟨b1, b2⟩ := magic_quot_bounds d 1 hd hd31 (fun j h0 h1 => by omega) 1 (le_refl _)
  obtain ⟨k, s, r1, r2, r3, r4, _, _, _, r8⟩ :=
    calcMagicLoop_spec d (2 ^ 31 - 1 - 2 ^ 31 % d) hd hd31 (by omega) hhi fuel 0
      (calcMagicEntry (d : Int)).2.2 e3 b1 b2 (by omega)
  obtain ⟨j, hj1, _, hs, hall, hfin⟩ := calcMagicLoop_trace _ _ _ _ _ r1
  have hp := calcMagicIter_p d (2 ^ 31 - 1 - 2 ^ 31 % d) (calcMagicEntry (d : Int)).2.2 j
  rw [← hs, r4.1, e3.1] at hp
  have hjk : j = k := by omega
  subst hjk
  rw [hs] at r1 hfin
  exact ⟨j, hj1, r3, r1, calcMagicIter_exact d j hd hd31 r8,
    magic_quot_bounds d j hd hd31 r8, hall, hfin⟩

/-! ## The arithmetic of the general `divide` -/

/-- The stored constants for a power-of-two divider `2^k`. -/
theorem init_pow_two (N k : Nat) (hk : k + 1 < N) :
    TensorIntDivisor.init N ((2 ^ k : Nat) : Int)
      = { multiplier := 1, shift1 := min (k : Int) 1, shift2 := max ((k : Int) - 1) 0 } := by
  have hN : 1 ≤ N := by omega
  have hd : 2 ^ k ≤ 2 ^ (N - 1) := Nat.pow_le_pow_right (by norm_num) (by omega)
  obtain ⟨l, hl, _, hle, hgt, hm, _, _⟩ := init_spec N (2 ^ k) hN (by positivity) hd
  have hlk : l = k := by
    have h1 := (Nat.pow_le_pow_iff_right (by norm_num : 1 < 2)).1 hle
    rcases Nat.eq_zero_or_pos l with h0 | h0
    · omega
    · have h2 := (Nat.pow_lt_pow_iff_right (by norm_num : 1 < 2)).1 (hgt h0)
      omega
  subst hlk
  obtain ⟨hs1, hs2⟩ := init_shifts N _ l hl
  have hq : 2 ^ (N + l) / 2 ^ l = 2 ^ N := by
    rw [pow_add]
    exact Nat.mul_div_cancel _ (by positivity)
  rw [hq] at hm
  have hm1 : (TensorIntDivisor.init N ((2 ^ l : Nat) : Int)).multiplier = 1 := by omega
  have heta : TensorIntDivisor.init N ((2 ^ l : Nat) : Int)
      = { multiplier := (TensorIntDivisor.init N ((2 ^ l : Nat) : Int)).multiplier
          shift1 := (TensorIntDivisor.init N ((2 ^ l : Nat) : Int)).shift1
          shift2 := (TensorIntDivisor.init N ((2 ^ l : Nat) : Int)).shift2 } := rfl
  rw [heta, hm1, hs1, hs2]
  congr 1 <;> omega

/-- With a multiplier below `2^N`, neither the subtraction nor the addition of `divide`
wraps, for any `N`-bit numerator and any shift. -/
theorem divide_no_wrap (N m n sh : Nat) (hm : m < 2 ^ N) (hn : n < 2 ^ N) :
    muluh N m (n : Int) ≤ n ∧
      usub N (toUnsigned N (n : Int)) (muluh N m (n : Int)) = n - muluh N m (n : Int) ∧
      muluh N m (n : Int) + ((n - muluh N m (n : Int)) >>> sh) < 2 ^ N ∧
      uadd N (muluh N m (n : Int)) ((n - muluh N m (n : Int)) >>> sh)
        = muluh N m (n : Int) + ((n - muluh N m (n : Int)) >>> sh) := by
  have ht1 : muluh N m (n : Int) ≤ n := by
    rw [muluh_natCast N m n hm hn]
    apply Nat.div_le_of_le_mul
    exact Nat.mul_le_mul_right n hm.le
  have hsh : (n - muluh N m (n : Int)) >>> sh ≤ n - muluh N m (n : Int) := by
    rw [Nat.shiftRight_eq_div_pow]
    exact Nat.div_le_self _ _
  generalize muluh N m (n : Int) = t1 at *
  have hlt : t1 + ((n - t1) >>> sh) < 2 ^ N := by omega
  refine ⟨ht1, ?_, hlt, ?_⟩
  · unfold usub
    rw [toUnsigned_natCast N n hn]
    have e : n + 2 ^ N - t1 = (n - t1) + 2 ^ N := by omega
    rw [e, Nat.add_mod_right]
    exact Nat.mod_eq_of_lt (by omega)
  · unfold uadd
    exact Nat.mod_eq_of_lt hlt

/-- The default-constructed general divisor returns its numerator. -/
theorem default_divide_natCast (N n : Nat) (hN : 1 ≤ N) (hn : n < 2 ^ (N - 1) - 1) :
    TensorIntDivisor.default.divide N (n : Int) = some (n : Int) := by
  have hnN : n < 2 ^ N :=
    lt_of_lt_of_le (by omega : n < 2 ^ (N - 1)) (Nat.pow_le_pow_right (by norm_num) (by omega))
  have h0 : muluh N 0 (n : Int) = 0 := by
    rw [muluh_natCast N 0 n (by positivity) hnN]
    simp
  rw [divide_natCast N n _ hN hn]
  unfold TensorIntDivisor.divideBody TensorIntDivisor.quotientBits TensorIntDivisor.default
  simp only [h0, Int.toNat_zero, Nat.shiftRight_zero]
  unfold usub uadd
  rw [toUnsigned_natCast N n hnN, Nat.sub_zero, Nat.add_mod_right, Nat.mod_eq_of_lt hnN,
    Nat.zero_add, Nat.mod_eq_of_lt hnN, toSigned_natCast N n (by omega)]

/-! ## Properties of the general divisor -/

/-- C1: for every `d` with `0 < d < 2^31 - 1` and every `n` with `0 ≤ n < 2^31 - 1`, the
32-bit general divisor constructed from `d` returns `divide(n) = ⌊n / d⌋`; in particular
`d = 7, n = 100` gives 14, `d = 7, n = 0` gives 0 and `d = 8, n = 29` gives 3. -/
theorem general_divide32_floor (d n : Int) (hd0 : 0 < d) (hd : d < 2 ^ 31 - 1)
    (hn0 : 0 ≤ n) (hn : n < 2 ^ 31 - 1) :
    generalDivide 32 d n = some (n / d) ∧
      generalDivide 32 7 100 = some 14 ∧ generalDivide 32 7 0 = some 0 ∧
      generalDivide 32 8 29 = some 3 := by
  have key : ∀ a b : Nat, 0 < a → a < 2 ^ 31 - 1 → b < 2 ^ 31 - 1 →
      generalDivide 32 (a : Int) (b : Int) = some ((b : Int) / (a : Int)) :=
    fun a b h1 h2 h3 => generalDivide_natCast 32 a b (by norm_num) h1 h2 h3
  refine ⟨?_, ?_, ?_, ?_⟩
  · obtain ⟨a, rfl⟩ := Int.eq_ofNat_of_zero_le hd0.le
    obtain ⟨b, rfl⟩ := Int.eq_ofNat_of_zero_le hn0
    exact key a b (by omega) (by omega) (by omega)
  · exact key 7 100 (by norm_num) (by norm_num) (by norm_num)
  · exact key 7 0 (by norm_num) (by norm_num) (by norm_num)
  · exact key 8 29 (by norm_num) (by norm_num) (by norm_num)

theorem general_divide32_floor_witness :
    (0 : Int) < 7 ∧ (7 : Int) < 2 ^ 31 - 1 ∧ (0 : Int) ≤ 100 ∧ (100 : Int) < 2 ^ 31 - 1 ∧
      generalDivide 32 7 100 = some 14 :=
  ⟨by decide, by decide, by decide, by decide,
    (general_divide32_floor 7 100 (by decide) (by decide) (by decide) (by decide)).1⟩

/-- C2: for every `d` with `0 < d < 2^63 - 1` and every `n` with `0 ≤ n < 2^63 - 1`, the
64-bit general divisor constructed from `d` (multiplier and multiply-high computed through
the 128-bit intermediate) returns `divide(n) = ⌊n / d⌋`. -/
theorem general_divide64_floor (d n : Int) (hd0 : 0 < d) (hd : d < 2 ^ 63 - 1)
    (hn0 : 0 ≤ n) (hn : n < 2 ^ 63 - 1) :
    generalDivide 64 d n = some (n / d) := by
  obtain ⟨a, rfl⟩ := Int.eq_ofNat_of_zero_le hd0.le
  obtain ⟨b, rfl⟩ := Int.eq_ofNat_of_zero_le hn0
  exact generalDivide_natCast 64 a b (by norm_num) (by omega) (by omega) (by omega)

theorem general_divide64_floor_witness :
    (0 : Int) < 3 ∧ (3 : Int) < 2 ^ 63 - 1 ∧ (0 : Int) ≤ 9223372036854775806 ∧
      (9223372036854775806 : Int) < 2 ^ 63 - 1 ∧
      generalDivide 64 3 9223372036854775806 = some (9223372036854775806 / 3) :=
  ⟨by decide, by decide, by decide, by decide,
    general_divide64_floor 3 9223372036854775806 (by decide) (by decide) (by decide)
      (by decide)⟩

/-- C3: constructing the general divisor from `d = 1` (32- or 64-bit) yields
`log_div = 0`, `multiplier = 1`, `shift1 = 0`, `shift2 = 0`, and with these constants
`divide(n) = n` for every `n` in the valid numerator range. -/
theorem general_divisor_one (N : Nat) (hN : N = 32 ∨ N = 64) (n : Int) (hn0 : 0 ≤ n)
    (hn : n < 2 ^ (N - 1) - 1) :
    log_div N 1 = 0 ∧
      TensorIntDivisor.construct N 1 = some { multiplier := 1, shift1 := 0, shift2 := 0 } ∧
      TensorIntDivisor.divide N { multiplier := 1, shift1 := 0, shift2 := 0 } n = some n := by
  have hN1 : 1 ≤ N := by omega
  have h1 : (1 : Nat) < 2 ^ (N - 1) - 1 := by
    rcases hN with h | h <;> subst h <;> norm_num
  have hl : log_div N 1 = 0 := by
    rcases hN with h | h <;> subst h <;> decide
  have hc : TensorIntDivisor.construct N 1
      = some { multiplier := 1, shift1 := 0, shift2 := 0 } := by
    rcases hN with h | h <;> subst h <;> decide
  refine ⟨hl, hc, ?_⟩
  obtain ⟨b, rfl⟩ := Int.eq_ofNat_of_zero_le hn0
  have hb : b < 2 ^ (N - 1) - 1 := by
    have e : ((2 : Int) ^ (N - 1) - 1) = ((2 ^ (N - 1) - 1 : Nat) : Int) := by
      have : 1 ≤ 2 ^ (N - 1) := Nat.one_le_two_pow
      push_cast [this]
      rfl
    rw [e] at hn
    exact_mod_cast hn
  have hg := generalDivide_natCast N 1 b hN1 (by norm_num) h1 hb
  unfold generalDivide at hg
  rw [Nat.cast_one, hc, Option.some_bind, Int.ediv_one] at hg
  exact hg

theorem general_divisor_one_witness :
    (32 = 32 ∨ 32 = 64) ∧ (0 : Int) ≤ 12345 ∧ (12345 : Int) < 2 ^ (32 - 1) - 1 ∧
      TensorIntDivisor.divide 32 { multiplier := 1, shift1 := 0, shift2 := 0 } 12345
        = some 12345 :=
  ⟨Or.inl rfl, by decide, by decide,
    (general_divisor_one 32 (Or.inl rfl) 12345 (by decide) (by decide)).2.2⟩

/-- C6: constructing a general divisor with `d = 0` or any `d < 0` fails: one of the two
construction-time assertions rejects it and no divisor constants are produced. -/
theorem general_construct_rejects_nonpositive (N : Nat) (d : Int) (hd : d ≤ 0) :
    TensorIntDivisor.construct N d = none := by
  unfold TensorIntDivisor.construct
  have h : ¬ (d > 0) := by omega
  simp [h]

theorem general_construct_rejects_nonpositive_witness :
    ((0 : Int) ≤ 0 ∧ TensorIntDivisor.construct 32 0 = none) ∧
      ((-5 : Int) ≤ 0 ∧ TensorIntDivisor.construct 32 (-5) = none) :=
  ⟨⟨by decide, general_construct_rejects_nonpositive 32 0 (by decide)⟩,
    ⟨by decide, general_construct_rejects_nonpositive 32 (-5) (by decide)⟩⟩

/-- C8 (evaluation at the rejected divider): for `N = 32` the first assertion of the
constructor compares against `highest()/2 = 2^31 - 1`, so the divider `2^31 - 1` is
rejected although it satisfies `0 < d < 2^31`; the divider `2^31 - 2` is accepted. -/
theorem general_construct32_rejects_max :
    highest 32 / 2 = 2147483647 ∧ TensorIntDivisor.construct 32 2147483647 = none ∧
      TensorIntDivisor.construct 32 2147483646
        = some { multiplier := 5, shift1 := 1, shift2 := 30 } := by
  decide

/-- C9 (evaluation at the rejected numerator): for `N = 32` the assertion of `divide`
rejects the numerator `2^31 - 1` on every divisor, although the arithmetic of `divide`
yields the right quotient there (here for the divisor constructed from 7). -/
theorem general_divide32_rejects_max (s : TensorIntDivisor) :
    s.divide 32 2147483647 = none ∧
      (TensorIntDivisor.init 32 7).divideBody 32 2147483647 = 2147483647 / 7 := by
  constructor
  · unfold TensorIntDivisor.divide
    have h : numeratorInRange 32 2147483647 = false := by decide
    simp [h]
  · decide

/-- C10: every general divisor constructed from a valid `d` (`0 < d < 2^(N-1) - 1`,
`N = 32` or `N = 64`) has `shift1 ∈ {0, 1}` and `shift2 ≥ 0`; `shift1 = 0` only when
`d = 1`, and `shift2 ≤ N - 2`. -/
theorem general_shift_bounds (N : Nat) (hN : N = 32 ∨ N = 64) (d : Int) (hd0 : 0 < d)
    (hd : d < 2 ^ (N - 1) - 1) :
    ∃ s, TensorIntDivisor.construct N d = some s ∧ (s.shift1 = 0 ∨ s.shift1 = 1) ∧
      0 ≤ s.shift2 ∧ (s.shift1 = 0 → d = 1) ∧ s.shift2 ≤ (N : Int) - 2 := by
  have hN1 : 1 ≤ N := by omega
  obtain ⟨a, rfl⟩ := Int.eq_ofNat_of_zero_le hd0.le
  have ha : a < 2 ^ (N - 1) - 1 := by
    have e : ((2 : Int) ^ (N - 1) - 1) = ((2 ^ (N - 1) - 1 : Nat) : Int) := by
      have : 1 ≤ 2 ^ (N - 1) := Nat.one_le_two_pow
      push_cast [this]
      rfl
    rw [e] at hd
    exact_mod_cast hd
  have ha0 : 0 < a := by exact_mod_cast hd0
  have haN : a < 2 ^ N :=
    lt_of_lt_of_le (by omega : a < 2 ^ (N - 1)) (Nat.pow_le_pow_right (by norm_num) (by omega))
  obtain ⟨l, hl, hlN, hle, hgt⟩ := log_div_spec N a ha0 haN
  have hlN1 : l < N := by
    rcases Nat.eq_zero_or_pos l with h | h
    · omega
    · have h1 : 2 ^ (l - 1) < 2 ^ (N - 1) := lt_trans (hgt h) (by omega)
      have := (Nat.pow_lt_pow_iff_right (by norm_num : 1 < 2)).1 h1
      omega
  obtain ⟨hs1, hs2⟩ := init_shifts N a l hl
  refine ⟨_, construct_natCast N a hN1 ha0 ha, ?_, ?_, ?_, ?_⟩
  · rw [hs1]
    omega
  · rw [hs2]
    omega
  · rw [hs1]
    intro h0
    have hl0 : l = 0 := by omega
    subst hl0
    simp at hle
    have : a = 1 := by omega
    exact_mod_cast this
  · rw [hs2]
    omega

theorem general_shift_bounds_witness :
    (64 = 32 ∨ 64 = 64) ∧ (0 : Int) < 7 ∧ (7 : Int) < 2 ^ (64 - 1) - 1 ∧
      ∃ s, TensorIntDivisor.construct 64 7 = some s ∧ (s.shift1 = 0 ∨ s.shift1 = 1) ∧
        0 ≤ s.shift2 ∧ (s.shift1 = 0 → (7 : Int) = 1) ∧ s.shift2 ≤ ((64 : Nat) : Int) - 2 :=
  ⟨Or.inr rfl, by decide, by decide,
    general_shift_bounds 64 (Or.inr rfl) 7 (by decide) (by decide)⟩

/-! ## Properties of the specialised divisor -/

/-- C4 (counterexample): for `d = 3` and `n = -7` the specialised divisor returns `-3`,
not the truncating quotient `-2`. -/
theorem specialized_divide_negative_counterexample :
    TensorIntDivisor_int32_true.construct 33 3 = Outcome.ok { magic := 1431655766, shift := 0 } ∧
      specializedDivide 33 3 (-7) = Outcome.ok (-3) ∧ Int.tdiv (-7) 3 = -2 ∧
      specializedDivide 33 3 (-7) ≠ Outcome.ok (Int.tdiv (-7) 3) := by
  decide

/-- C4 (amended): for every signed 32-bit divisor `d ≥ 2` and every non-negative signed
32-bit numerator `n`, the specialised divisor constructed from `d` returns `divide(n)`
equal to the native truncating quotient of `n` by `d`; `d = 3, n = 7` gives 2. -/
theorem specialized_divide_truncating (fuel : Nat) (d n : Int) (hf : 31 ≤ fuel) (hd : 2 ≤ d)
    (hd31 : d ≤ 2 ^ 31 - 1) (hn0 : 0 ≤ n) (hn : n ≤ 2 ^ 31 - 1) :
    specializedDivide fuel d n = Outcome.ok (Int.tdiv n d) ∧
      specializedDivide fuel 3 7 = Outcome.ok 2 := by
  constructor
  · obtain ⟨a, rfl⟩ := Int.eq_ofNat_of_zero_le (by omega : 0 ≤ d)
    obtain ⟨b, rfl⟩ := Int.eq_ofNat_of_zero_le hn0
    rw [specializedDivide_natCast fuel a b hf (by omega) (by omega) (by omega),
      Int.tdiv_eq_ediv hn0 (by omega)]
    norm_cast
  · exact specializedDivide_natCast fuel 3 7 hf (by norm_num) (by norm_num) (by norm_num)

theorem specialized_divide_truncating_witness :
    31 ≤ 33 ∧ (2 : Int) ≤ 7 ∧ (7 : Int) ≤ 2 ^ 31 - 1 ∧ (0 : Int) ≤ 100 ∧
      (100 : Int) ≤ 2 ^ 31 - 1 ∧ specializedDivide 33 7 100 = Outcome.ok (Int.tdiv 100 7) :=
  ⟨by decide, by decide, by decide, by decide, by decide,
    (specialized_divide_truncating 33 7 100 (by decide) (by decide) (by decide) (by decide)
      (by decide)).1⟩

/-- C5: for every signed 32-bit divisor `d` with `2 ≤ d ≤ 2^31 - 1` and every
non-negative signed 32-bit numerator `n` (`0 ≤ n ≤ 2^31 - 1`), the specialised divisor
constructed from `d` returns `divide(n) = ⌊n / d⌋`; `d = 3, n = 7` gives 2. -/
theorem specialized_divide_floor (fuel : Nat) (d n : Int) (hf : 31 ≤ fuel) (hd : 2 ≤ d)
    (hd31 : d ≤ 2 ^ 31 - 1) (hn0 : 0 ≤ n) (hn : n ≤ 2 ^ 31 - 1) :
    (∃ s, TensorIntDivisor_int32_true.construct fuel d = Outcome.ok s ∧ s.divide n = n / d) ∧
      ∃ s, TensorIntDivisor_int32_true.construct fuel 3 = Outcome.ok s ∧ s.divide 7 = 2 := by
  have key : ∀ a b : Nat, 2 ≤ a → a < 2 ^ 31 → b < 2 ^ 31 →
      ∃ s, TensorIntDivisor_int32_true.construct fuel (a : Int) = Outcome.ok s ∧
        s.divide (b : Int) = (b : Int) / (a : Int) := by
    intro a b h1 h2 h3
    have h := specializedDivide_natCast fuel a b hf h1 h2 h3
    unfold specializedDivide at h
    split at h
    · rename_i s hs
      refine ⟨s, hs, ?_⟩
      have h4 := Outcome.ok.inj h
      rw [h4]
      norm_cast
    · exact absurd h (by simp)
    · exact absurd h (by simp)
  constructor
  · obtain ⟨a, rfl⟩ := Int.eq_ofNat_of_zero_le (by omega : 0 ≤ d)
    obtain ⟨b, rfl⟩ := Int.eq_ofNat_of_zero_le hn0
    exact key a b (by omega) (by omega) (by omega)
  · exact key 3 7 (by norm_num) (by norm_num) (by norm_num)

theorem specialized_divide_floor_witness :
    31 ≤ 31 ∧ (2 : Int) ≤ 2147483647 ∧ (2147483647 : Int) ≤ 2 ^ 31 - 1 ∧
      (0 : Int) ≤ 2147483647 ∧ (2147483647 : Int) ≤ 2 ^ 31 - 1 ∧
      ∃ s, TensorIntDivisor_int32_true.construct 31 2147483647 = Outcome.ok s ∧
        s.divide 2147483647 = 2147483647 / 2147483647 :=
  ⟨by decide, by decide, by decide, by decide, by decide,
    (specialized_divide_floor 31 2147483647 2147483647 (by decide) (by decide) (by decide)
      (by decide) (by decide)).1⟩

/-- C7: constructing the specialised signed 32-bit divisor fails its construction-time
assertion exactly when `d < 2` (so `d = 1`, `d = 0` and every negative `d` are rejected),
and every `d ≥ 2` is accepted and yields a divisor. -/
theorem specialized_construct_rejects_iff (fuel : Nat) (d : Int) (hf : 31 ≤ fuel)
    (hlo : -2 ^ 31 ≤ d) (hhi : d ≤ 2 ^ 31 - 1) :
    (TensorIntDivisor_int32_true.construct fuel d = Outcome.assertionFailed ↔ d < 2) ∧
      ((∃ s, TensorIntDivisor_int32_true.construct fuel d = Outcome.ok s) ↔ 2 ≤ d) ∧
      TensorIntDivisor_int32_true.construct fuel 1 = Outcome.assertionFailed ∧
      TensorIntDivisor_int32_true.construct fuel 0 = Outcome.assertionFailed := by
  have hrej : ∀ x : Int, x < 2 →
      TensorIntDivisor_int32_true.construct fuel x = Outcome.assertionFailed := by
    intro x hx
    unfold TensorIntDivisor_int32_true.construct
    rw [if_pos (by omega)]
  have hacc : 2 ≤ d → ∃ s, TensorIntDivisor_int32_true.construct fuel d = Outcome.ok s := by
    intro h2
    obtain ⟨a, rfl⟩ := Int.eq_ofNat_of_zero_le (by omega : 0 ≤ d)
    obtain ⟨k, _, _, hc, _⟩ := calcMagic_spec fuel a hf (by omega) (by omega)
    refine ⟨{ magic := 2 ^ (31 + k) / a + 1, shift := (k : Int) - 1 }, ?_⟩
    unfold TensorIntDivisor_int32_true.construct
    rw [if_neg (by omega), hc]
  refine ⟨⟨?_, hrej d⟩, ⟨?_, hacc⟩, hrej 1 (by norm_num), hrej 0 (by norm_num)⟩
  · intro h
    by_contra hge
    obtain ⟨s, hs⟩ := hacc (by omega)
    rw [hs] at h
    exact absurd h (by simp)
  · rintro ⟨s, hs⟩
    by_contra hlt
    rw [hrej d (by omega)] at hs
    exact absurd hs (by simp)

theorem specialized_construct_rejects_iff_witness :
    31 ≤ 31 ∧ (-2 ^ 31 : Int) ≤ -4 ∧ (-4 : Int) ≤ 2 ^ 31 - 1 ∧
      (TensorIntDivisor_int32_true.construct 31 (-4) = Outcome.assertionFailed
        ↔ (-4 : Int) < 2) :=
  ⟨by decide, by decide, by decide,
    (specialized_construct_rejects_iff 31 (-4) (by decide) (by decide) (by decide)).1⟩

/-! ## The default-constructed divisors -/

/-- C11: the default general divisor has `multiplier = shift1 = shift2 = 0` and the default
specialised divisor has `magic = shift = 0`, whereas every general divisor constructed from
a valid `d` (`N = 32` or `64`) has `multiplier ≥ 1` and every specialised divisor
constructed from `d ≥ 2` has `magic ≥ 1`; so neither equals the default one. -/
theorem default_divisor_distinguishable (N fuel : Nat) (d e : Int) (hN : N = 32 ∨ N = 64)
    (hf : 31 ≤ fuel) (hd0 : 0 < d) (hd : d < 2 ^ (N - 1) - 1) (he : 2 ≤ e)
    (he31 : e ≤ 2 ^ 31 - 1) :
    TensorIntDivisor.default = { multiplier := 0, shift1 := 0, shift2 := 0 } ∧
      TensorIntDivisor_int32_true.default = { magic := 0, shift := 0 } ∧
      (∃ s, TensorIntDivisor.construct N d = some s ∧ 1 ≤ s.multiplier ∧
        s ≠ TensorIntDivisor.default) ∧
      (∃ s, TensorIntDivisor_int32_true.construct fuel e = Outcome.ok s ∧ 1 ≤ s.magic ∧
        s ≠ TensorIntDivisor_int32_true.default) := by
  have hN1 : 1 ≤ N := by omega
  refine ⟨rfl, rfl, ?_, ?_⟩
  · obtain ⟨a, rfl⟩ := Int.eq_ofNat_of_zero_le hd0.le
    have ha := valid_natCast N a hd
    have ha0 : 0 < a := by exact_mod_cast hd0
    obtain ⟨l, _, _, _, _, _, hm1, _⟩ := init_spec N a hN1 ha0 (by omega)
    refine ⟨_, construct_natCast N a hN1 ha0 ha, hm1, ?_⟩
    intro hdef
    rw [hdef] at hm1
    exact absurd hm1 (by decide)
  · obtain ⟨a, rfl⟩ := Int.eq_ofNat_of_zero_le (by omega : 0 ≤ e)
    obtain ⟨k, _, _, hc, _⟩ := calcMagic_spec fuel a hf (by omega) (by omega)
    refine ⟨{ magic := 2 ^ (31 + k) / a + 1, shift := (k : Int) - 1 }, ?_, ?_, ?_⟩
    · unfold TensorIntDivisor_int32_true.construct
      rw [if_neg (by omega), hc]
    · exact Nat.le_add_left 1 _
    · intro hdef
      have hm := congrArg TensorIntDivisor_int32_true.magic hdef
      simp [TensorIntDivisor_int32_true.default] at hm

theorem default_divisor_distinguishable_witness :
    (32 = 32 ∨ 32 = 64) ∧ 31 ≤ 31 ∧ (0 : Int) < 7 ∧ (7 : Int) < 2 ^ (32 - 1) - 1 ∧
      (2 : Int) ≤ 3 ∧ (3 : Int) ≤ 2 ^ 31 - 1 ∧
      (∃ s, TensorIntDivisor.construct 32 7 = some s ∧ 1 ≤ s.multiplier ∧
        s ≠ TensorIntDivisor.default) ∧
      (∃ s, TensorIntDivisor_int32_true.construct 31 3 = Outcome.ok s ∧ 1 ≤ s.magic ∧
        s ≠ TensorIntDivisor_int32_true.default) :=
  ⟨Or.inl rfl, by decide, by decide, by decide, by decide, by decide,
    (default_divisor_distinguishable 32 31 7 3 (Or.inl rfl) (by decide) (by decide)
      (by decide) (by decide) (by decide)).2.2⟩

/-! ## Properties of the accelerator primitives -/

/-- C12 (evaluation at failing inputs): routed to `__hip_clz`, the leading-zero count of
`0xFFFFFFFF` is 31 and that of `0x80000001` is 1, where the values have no leading zero
bit (the host count is 0); for `v = 1` and `v = 0x80000000` the results 31 and 0 are
right. -/
theorem count_leading_zeros_hcc_top_bit :
    count_leading_zeros_hcc 0xFFFFFFFF = 31 ∧ count_leading_zeros 32 0xFFFFFFFF = 0 ∧
      count_leading_zeros_hcc 0x80000001 = 1 ∧ count_leading_zeros 32 0x80000001 = 0 ∧
      count_leading_zeros_hcc 1 = 31 ∧ count_leading_zeros_hcc 0x80000000 = 0 := by
  decide

/-- C13: for all unsigned 32-bit `a` and `b`, the host expression
`(uint64(a) * b) >> 32` truncated to 32 bits and the accelerator function
`__hip_umulhi(a, b)` both return `⌊a * b / 2^32⌋`. -/
theorem muluh32_high_half (a b : Nat) (ha : a < 2 ^ 32) (hb : b < 2 ^ 32) :
    muluh 32 a (b : Int) = a * b / 2 ^ 32 ∧ __hip_umulhi a b = a * b / 2 ^ 32 :=
  ⟨muluh_natCast 32 a b ha hb, hip_umulhi_eq a b ha hb⟩

theorem muluh32_high_half_witness :
    4294967295 < 2 ^ 32 ∧ 4294967295 < 2 ^ 32 ∧
      muluh 32 4294967295 ((4294967295 : Nat) : Int) = 4294967295 * 4294967295 / 2 ^ 32 ∧
      __hip_umulhi 4294967295 4294967295 = 4294967295 * 4294967295 / 2 ^ 32 :=
  ⟨by decide, by decide, muluh32_high_half 4294967295 4294967295 (by decide) (by decide)⟩

/-- C14: for all unsigned 64-bit `x` and `y` the software multiply `__hip_umul64hi(x, y)`
returns `⌊x * y / 2^64⌋`, the value of the host multiply-high through the 128-bit product;
none of its three 64-bit sums wraps; in particular at `x = y = 2^64 - 1`. -/
theorem hip_umul64hi_high_half (x y : Nat) (hx : x < 2 ^ 64) (hy : y < 2 ^ 64) :
    __hip_umul64hi x y = x * y / 2 ^ 64 ∧ __hip_umul64hi x y = muluh 64 x (y : Int) ∧
      (umul64hi_steps x y).1 < 2 ^ 64 ∧ (umul64hi_steps x y).2.1 < 2 ^ 64 ∧
      (umul64hi_steps x y).2.2.1 < 2 ^ 64 ∧
      __hip_umul64hi (2 ^ 64 - 1) (2 ^ 64 - 1) = (2 ^ 64 - 1) * (2 ^ 64 - 1) / 2 ^ 64 := by
  obtain ⟨h1, h2, h3, h4⟩ := umul64hi_steps_spec x y hx hy
  have hmax := (umul64hi_steps_spec (2 ^ 64 - 1) (2 ^ 64 - 1) (by norm_num) (by norm_num)).2.2.2
  refine ⟨h4, ?_, h1, h2, h3, hmax⟩
  rw [muluh_natCast 64 x y hx hy]
  exact h4

theorem hip_umul64hi_high_half_witness :
    18446744073709551615 < 2 ^ 64 ∧ 12345678901234567 < 2 ^ 64 ∧
      __hip_umul64hi 18446744073709551615 12345678901234567
        = 18446744073709551615 * 12345678901234567 / 2 ^ 64 :=
  ⟨by decide, by decide,
    (hip_umul64hi_high_half 18446744073709551615 12345678901234567 (by decide)
      (by decide)).1⟩

set_option maxRecDepth 100000 in
/-- C15 (evaluation at failing inputs): the HCC branch of the 64-bit `muluh` passes its
64-bit operands to the 32-bit `__hip_umulhi`; for `a = b = 2^32` it returns 0 where the
host branch returns 1, and for `a = b = 2^64 - 1` it returns `2^32 - 2` where the host
branch returns `2^64 - 2`. -/
theorem muluh_hcc64_truncates :
    muluh_hcc64 4294967296 4294967296 = 0 ∧ muluh 64 4294967296 4294967296 = 1 ∧
      muluh_hcc64 18446744073709551615 18446744073709551615 = 4294967294 ∧
      muluh 64 18446744073709551615 18446744073709551615 = 18446744073709551614 := by
  decide

/-! ## Host and accelerator branches compared -/

/-- C16 (counterexample): on the specialised divisor constructed from `d = 3`, the host
`divide(-7)` returns `-3` and the accelerator `divide(-7)` returns `1431655763`. -/
theorem specialized_divide_hcc_negative_counterexample :
    TensorIntDivisor_int32_true.construct 33 3
        = Outcome.ok { magic := 1431655766, shift := 0 } ∧
      TensorIntDivisor_int32_true.divide { magic := 1431655766, shift := 0 } (-7) = -3 ∧
      TensorIntDivisor_int32_true.divide_hcc { magic := 1431655766, shift := 0 } (-7)
        = 1431655763 ∧
      TensorIntDivisor_int32_true.divide { magic := 1431655766, shift := 0 } (-7)
        ≠ TensorIntDivisor_int32_true.divide_hcc { magic := 1431655766, shift := 0 } (-7) := by
  decide

/-- C16 (amended): for every specialised divisor constructed from `d ≥ 2` and every
non-negative signed 32-bit numerator `n`, the host formulation of `divide` and the
accelerator formulation `__hip_umulhi(magic, n) >> shift` return the same value. -/
theorem specialized_divide_hcc_agrees (fuel : Nat) (d n : Int) (hf : 31 ≤ fuel) (hd : 2 ≤ d)
    (hd31 : d ≤ 2 ^ 31 - 1) (hn0 : 0 ≤ n) (hn : n ≤ 2 ^ 31 - 1) :
    ∃ s, TensorIntDivisor_int32_true.construct fuel d = Outcome.ok s ∧
      s.divide_hcc n = s.divide n := by
  obtain ⟨a, rfl⟩ := Int.eq_ofNat_of_zero_le (by omega : 0 ≤ d)
  obtain ⟨b, rfl⟩ := Int.eq_ofNat_of_zero_le hn0
  obtain ⟨k, _, _, hc, _⟩ := calcMagic_spec fuel a hf (by omega) (by omega)
  refine ⟨{ magic := 2 ^ (31 + k) / a + 1, shift := (k : Int) - 1 }, ?_,
    specialized_divide_hcc_natCast _ b (by omega)⟩
  unfold TensorIntDivisor_int32_true.construct
  rw [if_neg (by omega), hc]

theorem specialized_divide_hcc_agrees_witness :
    31 ≤ 31 ∧ (2 : Int) ≤ 7 ∧ (7 : Int) ≤ 2 ^ 31 - 1 ∧ (0 : Int) ≤ 2147483647 ∧
      (2147483647 : Int) ≤ 2 ^ 31 - 1 ∧
      ∃ s, TensorIntDivisor_int32_true.construct 31 7 = Outcome.ok s ∧
        s.divide_hcc 2147483647 = s.divide 2147483647 :=
  ⟨by decide, by decide, by decide, by decide, by decide,
    specialized_divide_hcc_agrees 31 7 2147483647 (by decide) (by decide) (by decide)
      (by decide) (by decide)⟩

/-- C17: for every valid `d` (`0 < d < 2^31 - 1`) and every valid `n`
(`0 ≤ n < 2^31 - 1`), the 32-bit general divisor built with `__hip_clz` and evaluated with
`__hip_umulhi` has the same multiplier, `shift1` and `shift2` as the one built with the
host primitives, and both return the same quotient `⌊n / d⌋`. -/
theorem general_divide_hcc_agrees (d n : Int) (hd0 : 0 < d) (hd : d < 2 ^ 31 - 1)
    (hn0 : 0 ≤ n) (hn : n < 2 ^ 31 - 1) :
    TensorIntDivisor.construct_hcc d = TensorIntDivisor.construct 32 d ∧
      (∃ s, TensorIntDivisor.construct_hcc d = some s ∧ s.divide_hcc n = s.divide 32 n) ∧
      generalDivide_hcc d n = generalDivide 32 d n ∧ generalDivide_hcc d n = some (n / d) := by
  obtain ⟨a, rfl⟩ := Int.eq_ofNat_of_zero_le hd0.le
  obtain ⟨b, rfl⟩ := Int.eq_ofNat_of_zero_le hn0
  have ha0 : 0 < a := by omega
  have hc := construct_hcc_natCast a ha0 (by omega)
  have hs := construct_natCast 32 a (by norm_num) ha0 (by omega)
  have hg : generalDivide_hcc (a : Int) (b : Int) = generalDivide 32 (a : Int) (b : Int) := by
    unfold generalDivide_hcc generalDivide
    rw [hc, hs, Option.some_bind, Option.some_bind]
    exact divide_hcc_natCast _ b (by omega)
  refine ⟨hc, ⟨_, hc.trans hs, divide_hcc_natCast _ b (by omega)⟩, hg, ?_⟩
  rw [hg]
  exact generalDivide_natCast 32 a b (by norm_num) ha0 (by omega) (by omega)

theorem general_divide_hcc_agrees_witness :
    (0 : Int) < 7 ∧ (7 : Int) < 2 ^ 31 - 1 ∧ (0 : Int) ≤ 100 ∧ (100 : Int) < 2 ^ 31 - 1 ∧
      generalDivide_hcc 7 100 = generalDivide 32 7 100 :=
  ⟨by decide, by decide, by decide, by decide,
    (general_divide_hcc_agrees 7 100 (by decide) (by decide) (by decide) (by decide)).2.2.1⟩

/-! ## Termination of the magic-number search -/

/-- C18: for every signed 32-bit divisor `d ≥ 2` the loop of `calcMagic` terminates after
at most 33 executions of its body: with fuel 33 it returns a final state, and the number
`p - 31` of executions it performed is between 1 and 33. -/
theorem calcMagic_loop_terminates (d : Int) (hd : 2 ≤ d) (hd31 : d ≤ 2 ^ 31 - 1) :
    ∃ s, calcMagicLoop (calcMagicEntry d).1 (calcMagicEntry d).2.1 33 (calcMagicEntry d).2.2
        = some s ∧ 1 ≤ s.p - 31 ∧ s.p - 31 ≤ 33 ∧ (calcMagic 33 d).isSome = true := by
  obtain ⟨a, rfl⟩ := Int.eq_ofNat_of_zero_le (by omega : 0 ≤ d)
  have ha : 2 ≤ a := by omega
  have ha31 : a < 2 ^ 31 := by omega
  obtain ⟨hlo, hhi⟩ := anc_bounds a ha ha31
  obtain ⟨e1, e2, e3⟩ := calcMagicEntry_spec a ha ha31
  have h1 : 2 ^ (31 + (0 + 1)) / (2 ^ 31 - 1 - 2 ^ 31 % a) < 2 ^ 32 := by
    have : 2 ^ (31 + (0 + 1)) / (2 ^ 31 - 1 - 2 ^ 31 % a) ≤ 4 := by
      apply Nat.div_le_of_le_mul
      have e : (2 : Nat) ^ (31 + (0 + 1)) = 4 * 2 ^ 30 := by norm_num
      rw [e]
      omega
    omega
  have h2 : 2 ^ (31 + (0 + 1)) / a + 1 < 2 ^ 32 := by
    have : 2 ^ (31 + (0 + 1)) / a ≤ 2 ^ 31 := by
      apply Nat.div_le_of_le_mul
      have : (2 : Nat) ^ (31 + (0 + 1)) = 2 * 2 ^ 31 := by norm_num
      rw [this]
      exact Nat.mul_le_mul_right _ ha
    omega
  obtain ⟨k, s, r1, r2, r3, r4, _⟩ :=
    calcMagicLoop_spec a (2 ^ 31 - 1 - 2 ^ 31 % a) ha ha31 (by omega) hhi 33 0
      (calcMagicEntry (a : Int)).2.2 e3 h1 h2 (by omega)
  rw [e1, e2]
  refine ⟨s, r1, ?_, ?_, ?_⟩
  · rw [r4.1]
    omega
  · rw [r4.1]
    omega
  · unfold calcMagic
    simp only [e1, e2, r1, Option.map_some', Option.isSome_some]

theorem calcMagic_loop_terminates_witness :
    (2 : Int) ≤ 2147483647 ∧ (2147483647 : Int) ≤ 2 ^ 31 - 1 ∧
      (calcMagic 33 2147483647).isSome = true :=
  ⟨by decide, by decide,
    (calcMagic_loop_terminates 2147483647 (by decide) (by decide)).elim
      fun _ h => h.2.2.2⟩

/-! ## The constants of the general constructor -/

/-- C19: for every valid `d` (`N = 32` or `64`) the `log_div` of the general constructor is
`⌈log2 d⌉`: it is `N` minus the leading-zero count, less one exactly when `d` is a power of
two, so `d ≤ 2^log_div` and, for `d ≥ 2`, `2^(log_div - 1) < d`; the stored shifts are
`shift1 = min(log_div, 1)` and `shift2 = max(log_div - 1, 0)`, with
`shift1 + shift2 = log_div`. -/
theorem log_div_is_clog (N d : Nat) (hN : N = 32 ∨ N = 64) (h0 : 0 < d)
    (hd : d < 2 ^ (N - 1) - 1) :
    ∃ l : Nat, log_div N (d : Int) = (l : Int) ∧ l = Nat.clog 2 d ∧ d ≤ 2 ^ l ∧
      (2 ≤ d → 2 ^ (l - 1) < d) ∧
      ((∃ k : Nat, d = 2 ^ k) → l + 1 + count_leading_zeros N d = N) ∧
      ((¬ ∃ k : Nat, d = 2 ^ k) → l + count_leading_zeros N d = N) ∧
      (TensorIntDivisor.init N (d : Int)).shift1 = min (l : Int) 1 ∧
      (TensorIntDivisor.init N (d : Int)).shift2 = max ((l : Int) - 1) 0 ∧
      (TensorIntDivisor.init N (d : Int)).shift1 + (TensorIntDivisor.init N (d : Int)).shift2
        = (l : Int) := by
  have hN1 : 1 ≤ N := by omega
  have hdN : d < 2 ^ N :=
    lt_of_lt_of_le (by omega : d < 2 ^ (N - 1)) (Nat.pow_le_pow_right (by norm_num) (by omega))
  obtain ⟨l, hl, _, hle, hgt, _⟩ := init_spec N d hN1 h0 (by omega)
  obtain ⟨hc, hlo, hhi, hite⟩ := log_div_eq_ite N d h0 hdN
  obtain ⟨hs1, hs2⟩ := init_shifts N d l hl
  rw [hl] at hite
  have hite2 : l = if 2 ^ (N - 1 - count_leading_zeros N d) = d
      then N - 1 - count_leading_zeros N d else N - count_leading_zeros N d := by
    exact_mod_cast hite
  generalize count_leading_zeros N d = c at hc hlo hhi hite2
  refine ⟨l, hl, (clog_of_bracket d l hle hgt).symm, hle, ?_, ?_, ?_, ?_, ?_, ?_⟩
  · intro h2
    apply hgt
    by_contra hl0
    have : l = 0 := by omega
    subst this
    simp at hle
    omega
  · rintro ⟨k, hk⟩
    by_cases h : 2 ^ (N - 1 - c) = d
    · rw [if_pos h] at hite2
      omega
    · exfalso
      rw [hk] at hlo hhi
      have a1 := (Nat.pow_le_pow_iff_right (by norm_num : 1 < 2)).1 hlo
      have a2 := (Nat.pow_lt_pow_iff_right (by norm_num : 1 < 2)).1 hhi
      have : k = N - 1 - c := by omega
      rw [this] at hk
      exact h hk.symm
  · intro hnp
    by_cases h : 2 ^ (N - 1 - c) = d
    · exact absurd ⟨N - 1 - c, h.symm⟩ hnp
    · rw [if_neg h] at hite2
      omega
  · rw [hs1]
    omega
  · rw [hs2]
    omega
  · rw [hs1, hs2]
    omega

theorem log_div_is_clog_witness :
    (32 = 32 ∨ 32 = 64) ∧ 0 < 8 ∧ 8 < 2 ^ (32 - 1) - 1 ∧
      ∃ l : Nat, log_div 32 ((8 : Nat) : Int) = (l : Int) ∧ l = Nat.clog 2 8 ∧ 8 ≤ 2 ^ l ∧
        (2 ≤ 8 → 2 ^ (l - 1) < 8) ∧
        ((∃ k : Nat, 8 = 2 ^ k) → l + 1 + count_leading_zeros 32 8 = 32) ∧
        ((¬ ∃ k : Nat, 8 = 2 ^ k) → l + count_leading_zeros 32 8 = 32) ∧
        (TensorIntDivisor.init 32 ((8 : Nat) : Int)).shift1 = min (l : Int) 1 ∧
        (TensorIntDivisor.init 32 ((8 : Nat) : Int)).shift2 = max ((l : Int) - 1) 0 ∧
        (TensorIntDivisor.init 32 ((8 : Nat) : Int)).shift1
          + (TensorIntDivisor.init 32 ((8 : Nat) : Int)).shift2 = (l : Int) :=
  ⟨Or.inl rfl, by decide, by decide, log_div_is_clog 32 8 (Or.inl rfl) (by decide) (by decide)⟩

/-- C20: for `N = 32` and every `d` with `0 < d < 2^31 - 1`, the stored multiplier is the
exact integer `⌊2^(32 + log_div) / d⌋ - 2^32 + 1` with `log_div = ⌈log2 d⌉`: the 64-bit
intermediate does not overflow (`2^(32 + log_div) < 2^64`, and the quotient is at least
`2^32`), and the exact value lies in `[1, 2^32 - 1]`. -/
theorem multiplier32_exact (d : Nat) (h0 : 0 < d) (hd : d < 2 ^ 31 - 1) :
    ∃ (l : Nat) (s : TensorIntDivisor), log_div 32 (d : Int) = (l : Int) ∧
      l = Nat.clog 2 d ∧ TensorIntDivisor.construct 32 (d : Int) = some s ∧
      2 ^ (32 + l) < 2 ^ 64 ∧ 2 ^ 32 ≤ 2 ^ (32 + l) / d ∧
      s.multiplier = 2 ^ (32 + l) / d - 2 ^ 32 + 1 ∧ 1 ≤ s.multiplier ∧
      s.multiplier ≤ 2 ^ 32 - 1 := by
  obtain ⟨l, hl, hlN, hle, hgt, hm, hm1, hmN⟩ := init_spec 32 d (by norm_num) h0 (by omega)
  refine ⟨l, _, hl, (clog_of_bracket d l hle hgt).symm,
    construct_natCast 32 d (by norm_num) h0 (by omega), ?_, ?_, ?_, hm1, by omega⟩
  · exact Nat.pow_lt_pow_right (by norm_num) (by omega)
  · omega
  · omega

theorem multiplier32_exact_witness :
    0 < 7 ∧ 7 < 2 ^ 31 - 1 ∧
      ∃ (l : Nat) (s : TensorIntDivisor), log_div 32 ((7 : Nat) : Int) = (l : Int) ∧
        l = Nat.clog 2 7 ∧ TensorIntDivisor.construct 32 ((7 : Nat) : Int) = some s ∧
        2 ^ (32 + l) < 2 ^ 64 ∧ 2 ^ 32 ≤ 2 ^ (32 + l) / 7 ∧
        s.multiplier = 2 ^ (32 + l) / 7 - 2 ^ 32 + 1 ∧ 1 ≤ s.multiplier ∧
        s.multiplier ≤ 2 ^ 32 - 1 :=
  ⟨by decide, by decide, multiplier32_exact 7 (by decide) (by decide)⟩

/-! ## The run of the magic-number search -/

/-- C22: for every signed 32-bit `d ≥ 2`, `calcMagic` ends after `k ≥ 1` executions of its
loop body with `p = 31 + k ≥ 32`, and stores `shift = p - 32` with `0 ≤ shift ≤ 31` and
`magic = ⌊2^(32 + shift) / d⌋ + 1 < 2^32`; every state the loop visits holds the exact
`q1 = ⌊2^p / anc⌋`, `r1 = 2^p mod anc`, `q2 = ⌊2^p / d⌋`, `r2 = 2^p mod d`, and the
doublings of the body stay below `2^32`. -/
theorem calcMagic_exact (fuel d : Nat) (hf : 31 ≤ fuel) (hd : 2 ≤ d) (hd31 : d ≤ 2 ^ 31 - 1) :
    ∃ (k : Nat) (m : TensorIntDivisor_int32_true),
      calcMagicLoop (calcMagicEntry (d : Int)).1 (calcMagicEntry (d : Int)).2.1 fuel
          (calcMagicEntry (d : Int)).2.2
        = some ((calcMagicBody (calcMagicEntry (d : Int)).1 (calcMagicEntry (d : Int)).2.1)^[k]
            (calcMagicEntry (d : Int)).2.2) ∧
      32 ≤ ((calcMagicBody (calcMagicEntry (d : Int)).1 (calcMagicEntry (d : Int)).2.1)^[k]
        (calcMagicEntry (d : Int)).2.2).p ∧
      calcMagic fuel (d : Int) = some m ∧
      m.shift = ((calcMagicBody (calcMagicEntry (d : Int)).1
        (calcMagicEntry (d : Int)).2.1)^[k] (calcMagicEntry (d : Int)).2.2).p - 32 ∧
      0 ≤ m.shift ∧ m.shift ≤ 31 ∧ m.magic = 2 ^ (32 + m.shift.toNat) / d + 1 ∧
      m.magic < 2 ^ 32 ∧
      ∀ i : Nat, i ≤ k →
        ((calcMagicBody (calcMagicEntry (d : Int)).1 (calcMagicEntry (d : Int)).2.1)^[i]
          (calcMagicEntry (d : Int)).2.2).p = 31 + (i : Int) ∧
        ((calcMagicBody (calcMagicEntry (d : Int)).1 (calcMagicEntry (d : Int)).2.1)^[i]
          (calcMagicEntry (d : Int)).2.2).q1 = 2 ^ (31 + i) / (calcMagicEntry (d : Int)).2.1 ∧
        ((calcMagicBody (calcMagicEntry (d : Int)).1 (calcMagicEntry (d : Int)).2.1)^[i]
          (calcMagicEntry (d : Int)).2.2).r1 = 2 ^ (31 + i) % (calcMagicEntry (d : Int)).2.1 ∧
        ((calcMagicBody (calcMagicEntry (d : Int)).1 (calcMagicEntry (d : Int)).2.1)^[i]
          (calcMagicEntry (d : Int)).2.2).q2 = 2 ^ (31 + i) / d ∧
        ((calcMagicBody (calcMagicEntry (d : Int)).1 (calcMagicEntry (d : Int)).2.1)^[i]
          (calcMagicEntry (d : Int)).2.2).r2 = 2 ^ (31 + i) % d ∧
        (i < k →
          2 * (2 ^ (31 + i) / (calcMagicEntry (d : Int)).2.1) + 1 < 2 ^ 32 ∧
          2 * (2 ^ (31 + i) % (calcMagicEntry (d : Int)).2.1) < 2 ^ 32 ∧
          2 * (2 ^ (31 + i) / d) + 1 < 2 ^ 32 ∧ 2 * (2 ^ (31 + i) % d) < 2 ^ 32) := by
  have hd31a : d < 2 ^ 31 := by omega
  obtain ⟨hlo, hhi⟩ := anc_bounds d hd hd31a
  obtain ⟨e1, e2, _⟩ := calcMagicEntry_spec d hd hd31a
  obtain ⟨k, hk1, hk31, hloop, hex, hb, _, _⟩ := calcMagic_run fuel d hf hd hd31a
  obtain ⟨hp, _, _, hq2, _⟩ := hex k (le_refl _)
  have hmag := (hb k (le_refl _)).2
  rw [e1, e2]
  refine ⟨k, { magic := 2 ^ (31 + k) / d + 1, shift := (k : Int) - 1 }, hloop, ?_, ?_, ?_,
    ?_, ?_, ?_, hmag, ?_⟩
  · rw [hp]
    omega
  · unfold calcMagic
    simp only [e1, e2, hloop, Option.map_some']
    have em : uadd 32 (2 ^ (31 + k) / d) 1 = 2 ^ (31 + k) / d + 1 := Nat.mod_eq_of_lt hmag
    rw [hp, hq2, em]
    congr 2
    ring
  · rw [hp]
    ring
  · show (0 : Int) ≤ (k : Int) - 1
    omega
  · show (k : Int) - 1 ≤ 31
    omega
  · show 2 ^ (31 + k) / d + 1 = 2 ^ (32 + ((k : Int) - 1).toNat) / d + 1
    have e : 32 + ((k : Int) - 1).toNat = 31 + k := by omega
    rw [e]
  · intro i hi
    obtain ⟨a1, a2, a3, a4, a5⟩ := hex i hi
    refine ⟨a1, a2, a3, a4, a5, ?_⟩
    intro hik
    obtain ⟨c1, c2⟩ := hb (i + 1) (by omega)
    have e : (2 : Nat) ^ (31 + (i + 1)) = 2 * 2 ^ (31 + i) := by
      rw [← pow_succ']
      rfl
    rw [e] at c1 c2
    have m1 : 2 ^ (31 + i) % (2 ^ 31 - 1 - 2 ^ 31 % d) < 2 ^ 31 - 1 - 2 ^ 31 % d :=
      Nat.mod_lt _ (by omega)
    have m2 : 2 ^ (31 + i) % d < d := Nat.mod_lt _ (by omega)
    exact ⟨double_quot_lt _ _ (by omega) c1, by omega,
      double_quot_lt _ _ (by omega) (by omega), by omega⟩

theorem calcMagic_exact_witness :
    31 ≤ 33 ∧ 2 ≤ 7 ∧ 7 ≤ 2 ^ 31 - 1 ∧
      ∃ m : TensorIntDivisor_int32_true, calcMagic 33 ((7 : Nat) : Int) = some m ∧
        0 ≤ m.shift ∧ m.shift ≤ 31 ∧ m.magic = 2 ^ (32 + m.shift.toNat) / 7 + 1 ∧
        m.magic < 2 ^ 32 :=
  ⟨by decide, by decide, by decide,
    (calcMagic_exact 33 7 (by decide) (by decide) (by decide)).elim fun _ h =>
      h.elim fun m hm => ⟨m, hm.2.2.1, hm.2.2.2.2.1, hm.2.2.2.2.2.1, hm.2.2.2.2.2.2.1,
        hm.2.2.2.2.2.2.2.1⟩⟩

/-- C23 (counterexample): for `d = 7` the predicate `q1 < delta || (q1 == delta && r1 == 0)`
is true after the first execution of the loop body, yet the loop does not stop there; it
stops after the third execution, where the predicate is false, and `magic`, `shift` come
from that state (`p = 34`). -/
theorem calcMagic_predicate_counterexample :
    calcMagicCond (calcMagicBody (calcMagicEntry 7).1 (calcMagicEntry 7).2.1
        (calcMagicEntry 7).2.2) = true ∧
      calcMagicLoop (calcMagicEntry 7).1 (calcMagicEntry 7).2.1 33 (calcMagicEntry 7).2.2
        = some { p := 34, q1 := 8, r1 := 24, q2 := 2454267026, r2 := 2, delta := 5 } ∧
      calcMagicCond { p := 34, q1 := 8, r1 := 24, q2 := 2454267026, r2 := 2, delta := 5 }
        = false ∧
      calcMagic 33 7 = some { magic := 2454267027, shift := 2 } := by
  decide

/-- C23 (amended): in `calcMagic` the loop keeps iterating while the predicate
`q1 < delta || (q1 == delta && r1 == 0)` holds, with `delta = d - r2` recomputed in each
iteration: it stops at the first iteration after which the predicate is false, and `magic`
and `shift` are taken from that iteration. -/
theorem calcMagic_stops_when_false (fuel d : Nat) (hf : 31 ≤ fuel) (hd : 2 ≤ d)
    (hd31 : d ≤ 2 ^ 31 - 1) :
    ∃ k : Nat, 1 ≤ k ∧
      calcMagicLoop (calcMagicEntry (d : Int)).1 (calcMagicEntry (d : Int)).2.1 fuel
          (calcMagicEntry (d : Int)).2.2
        = some ((calcMagicBody (calcMagicEntry (d : Int)).1 (calcMagicEntry (d : Int)).2.1)^[k]
            (calcMagicEntry (d : Int)).2.2) ∧
      (∀ i : Nat, 1 ≤ i → i < k → calcMagicCond
        ((calcMagicBody (calcMagicEntry (d : Int)).1 (calcMagicEntry (d : Int)).2.1)^[i]
          (calcMagicEntry (d : Int)).2.2) = true) ∧
      calcMagicCond
        ((calcMagicBody (calcMagicEntry (d : Int)).1 (calcMagicEntry (d : Int)).2.1)^[k]
          (calcMagicEntry (d : Int)).2.2) = false ∧
      (∀ i : Nat, 1 ≤ i → i ≤ k →
        ((calcMagicBody (calcMagicEntry (d : Int)).1 (calcMagicEntry (d : Int)).2.1)^[i]
          (calcMagicEntry (d : Int)).2.2).delta
        = usub 32 (calcMagicEntry (d : Int)).1
            ((calcMagicBody (calcMagicEntry (d : Int)).1 (calcMagicEntry (d : Int)).2.1)^[i]
              (calcMagicEntry (d : Int)).2.2).r2) ∧
      calcMagic fuel (d : Int) = some
        { magic := uadd 32
            ((calcMagicBody (calcMagicEntry (d : Int)).1 (calcMagicEntry (d : Int)).2.1)^[k]
              (calcMagicEntry (d : Int)).2.2).q2 1
          shift := ((calcMagicBody (calcMagicEntry (d : Int)).1
            (calcMagicEntry (d : Int)).2.1)^[k] (calcMagicEntry (d : Int)).2.2).p - 32 } := by
  have hd31a : d < 2 ^ 31 := by omega
  obtain ⟨e1, e2, _⟩ := calcMagicEntry_spec d hd hd31a
  obtain ⟨k, hk1, _, hloop, _, _, hall, hfin⟩ := calcMagic_run fuel d hf hd hd31a
  have hc : calcMagic fuel (d : Int) = some
      { magic := uadd 32 ((calcMagicBody d (2 ^ 31 - 1 - 2 ^ 31 % d))^[k]
          (calcMagicEntry (d : Int)).2.2).q2 1
        shift := ((calcMagicBody d (2 ^ 31 - 1 - 2 ^ 31 % d))^[k]
          (calcMagicEntry (d : Int)).2.2).p - 32 } := by
    unfold calcMagic
    simp only [e1, e2, hloop, Option.map_some']
  rw [e1, e2]
  exact ⟨k, hk1, hloop, hall, hfin, fun i hi _ => calcMagicIter_delta _ _ _ i hi, hc⟩

theorem calcMagic_stops_when_false_witness :
    31 ≤ 33 ∧ 2 ≤ 7 ∧ 7 ≤ 2 ^ 31 - 1 ∧
      ∃ k : Nat, 1 ≤ k ∧
        calcMagicCond
          ((calcMagicBody (calcMagicEntry ((7 : Nat) : Int)).1
            (calcMagicEntry ((7 : Nat) : Int)).2.1)^[k]
              (calcMagicEntry ((7 : Nat) : Int)).2.2) = false :=
  ⟨by decide, by decide, by decide,
    (calcMagic_stops_when_false 33 7 (by decide) (by decide) (by decide)).elim fun k h =>
      ⟨k, h.1, h.2.2.2.1⟩⟩

/-! ## Further properties of the general divisor -/

/-- C21: for every power-of-two divisor `d = 2^k` with `0 ≤ k ≤ 30` (`N = 32`), the general
constructor produces `multiplier = 1`, `shift1 = min(k, 1)`, `shift2 = max(k - 1, 0)`, and
`divide(n) = n >> k` for every valid `n`; `d = 8, n = 29` gives 3. -/
theorem general_divisor_pow_two (k n : Nat) (hk : k ≤ 30) (hn : n < 2 ^ 31 - 1) :
    TensorIntDivisor.construct 32 ((2 ^ k : Nat) : Int)
        = some { multiplier := 1, shift1 := min (k : Int) 1, shift2 := max ((k : Int) - 1) 0 } ∧
      TensorIntDivisor.divide 32
          { multiplier := 1, shift1 := min (k : Int) 1, shift2 := max ((k : Int) - 1) 0 }
          (n : Int) = some ((n >>> k : Nat) : Int) ∧
      generalDivide 32 8 29 = some 3 := by
  have hd : 2 ^ k < 2 ^ 31 - 1 := by
    have : 2 ^ k ≤ 2 ^ 30 := Nat.pow_le_pow_right (by norm_num) hk
    omega
  have hc := construct_natCast 32 (2 ^ k) (by norm_num) (by positivity) hd
  rw [init_pow_two 32 k (by omega)] at hc
  have hg := generalDivide_natCast 32 (2 ^ k) n (by norm_num) (by positivity) hd hn
  unfold generalDivide at hg
  rw [hc, Option.some_bind] at hg
  refine ⟨hc, ?_, ?_⟩
  · rw [hg, Nat.shiftRight_eq_div_pow]
    norm_cast
  · exact generalDivide_natCast 32 8 29 (by norm_num) (by norm_num) (by norm_num)
      (by norm_num)

theorem general_divisor_pow_two_witness :
    3 ≤ 30 ∧ 29 < 2 ^ 31 - 1 ∧
      TensorIntDivisor.divide 32
          { multiplier := 1, shift1 := min ((3 : Nat) : Int) 1,
            shift2 := max (((3 : Nat) : Int) - 1) 0 }
          ((29 : Nat) : Int) = some ((29 >>> 3 : Nat) : Int) :=
  ⟨by decide, by decide, (general_divisor_pow_two 3 29 (by decide) (by decide)).2.1⟩

/-- C24: for every general divisor constructed from a valid `d` (`N = 32` or `64`) and
every valid numerator `n`, the `N`-bit unsigned arithmetic of `divide` never wraps:
`t1 = muluh(multiplier, n) ≤ n`, so `n - t1` does not underflow, and
`t1 + ((n - t1) >> shift1) < 2^N`, so the addition does not overflow. -/
theorem general_divide_no_wrap (N d n : Nat) (hN : N = 32 ∨ N = 64) (h0 : 0 < d)
    (hd : d < 2 ^ (N - 1) - 1) (hn : n < 2 ^ (N - 1) - 1) :
    ∃ s, TensorIntDivisor.construct N (d : Int) = some s ∧
      muluh N s.multiplier (n : Int) ≤ n ∧
      usub N (toUnsigned N (n : Int)) (muluh N s.multiplier (n : Int))
        = n - muluh N s.multiplier (n : Int) ∧
      muluh N s.multiplier (n : Int)
        + ((n - muluh N s.multiplier (n : Int)) >>> s.shift1.toNat) < 2 ^ N ∧
      uadd N (muluh N s.multiplier (n : Int))
          ((n - muluh N s.multiplier (n : Int)) >>> s.shift1.toNat)
        = muluh N s.multiplier (n : Int)
          + ((n - muluh N s.multiplier (n : Int)) >>> s.shift1.toNat) := by
  have hN1 : 1 ≤ N := by omega
  have hnN : n < 2 ^ N :=
    lt_of_lt_of_le (by omega : n < 2 ^ (N - 1)) (Nat.pow_le_pow_right (by norm_num) (by omega))
  obtain ⟨l, _, _, _, _, _, _, hm⟩ := init_spec N d hN1 h0 (by omega)
  exact ⟨_, construct_natCast N d hN1 h0 hd, divide_no_wrap N _ n _ hm hnN⟩

theorem general_divide_no_wrap_witness :
    (32 = 32 ∨ 32 = 64) ∧ 0 < 7 ∧ 7 < 2 ^ (32 - 1) - 1 ∧ 2147483646 < 2 ^ (32 - 1) - 1 ∧
      ∃ s, TensorIntDivisor.construct 32 ((7 : Nat) : Int) = some s ∧
        muluh 32 s.multiplier ((2147483646 : Nat) : Int) ≤ 2147483646 :=
  ⟨Or.inl rfl, by decide, by decide, by decide,
    (general_divide_no_wrap 32 7 2147483646 (Or.inl rfl) (by decide) (by decide)
      (by decide)).elim fun s h => ⟨s, h.1, h.2.1⟩⟩

/-- C25: for the 32-bit general divisor built from any `d` with `0 < d < 2^31 - 1`, the
computation `(t1 + ((n - t1) >> shift1)) >> shift2` with `t1 = ⌊multiplier * n / 2^32⌋`,
carried out on unsigned 32-bit values, equals `⌊n / d⌋` for every unsigned 32-bit `n`,
also for `2^31 - 1 ≤ n ≤ 2^32 - 1`, which the assertion of `divide` rejects. -/
theorem general_quotient_all_numerators (d n : Nat) (h0 : 0 < d) (hd : d < 2 ^ 31 - 1)
    (hn : n < 2 ^ 32) :
    ∃ s, TensorIntDivisor.construct 32 (d : Int) = some s ∧
      muluh 32 s.multiplier (n : Int) = s.multiplier * n / 2 ^ 32 ∧
      s.quotientBits 32 (n : Int) = n / d ∧
      (2 ^ 31 - 1 ≤ n → s.divide 32 (n : Int) = none) := by
  obtain ⟨l, _, _, _, _, _, _, hm⟩ := init_spec 32 d (by norm_num) h0 (by omega)
  refine ⟨_, construct_natCast 32 d (by norm_num) h0 hd, muluh_natCast 32 _ n hm hn,
    quotientBits_init 32 d n h0 (by omega) (by norm_num) hn, ?_⟩
  intro hge
  have hr : numeratorInRange 32 (n : Int) = false := by
    unfold numeratorInRange
    rw [toUnsigned_natCast 32 n hn, highest_half 32 (by norm_num)]
    exact decide_eq_false (by omega)
  unfold TensorIntDivisor.divide
  simp [hr]

theorem general_quotient_all_numerators_witness :
    0 < 7 ∧ 7 < 2 ^ 31 - 1 ∧ 4294967295 < 2 ^ 32 ∧
      ∃ s, TensorIntDivisor.construct 32 ((7 : Nat) : Int) = some s ∧
        s.quotientBits 32 ((4294967295 : Nat) : Int) = 4294967295 / 7 :=
  ⟨by decide, by decide, by decide,
    (general_quotient_all_numerators 7 4294967295 (by decide) (by decide) (by decide)).elim
      fun s h => ⟨s, h.1, h.2.2.1⟩⟩

/-- C26: the default-constructed (all-zero) general divisor does not fail when divided
through: for every numerator `n` in the valid range (`N = 32` or `64`) its `divide(n)`
returns `n`, as does the divisor constructed from `d = 1`. -/
theorem default_divisor_divides_by_one (N n : Nat) (hN : N = 32 ∨ N = 64)
    (hn : n < 2 ^ (N - 1) - 1) :
    TensorIntDivisor.default.divide N (n : Int) = some (n : Int) ∧
      ∃ s, TensorIntDivisor.construct N 1 = some s ∧
        s.divide N (n : Int) = TensorIntDivisor.default.divide N (n : Int) := by
  have hN1 : 1 ≤ N := by omega
  have h1 : (1 : Nat) < 2 ^ (N - 1) - 1 := by
    rcases hN with h | h <;> subst h <;> norm_num
  have hdef := default_divide_natCast N n hN1 hn
  have hc := construct_natCast N 1 hN1 (by norm_num) h1
  have hg := generalDivide_natCast N 1 n hN1 (by norm_num) h1 hn
  unfold generalDivide at hg
  rw [hc, Option.some_bind, Nat.cast_one, Int.ediv_one] at hg
  rw [Nat.cast_one] at hc
  exact ⟨hdef, _, hc, hg.trans hdef.symm⟩

theorem default_divisor_divides_by_one_witness :
    (64 = 32 ∨ 64 = 64) ∧ 12345 < 2 ^ (64 - 1) - 1 ∧
      TensorIntDivisor.default.divide 64 ((12345 : Nat) : Int) = some ((12345 : Nat) : Int) :=
  ⟨Or.inr rfl, by decide, (default_divisor_divides_by_one 64 12345 (Or.inr rfl) (by decide)).1⟩

/-! ## Serialisation of the divisor array -/

/-- C27 (evaluation at failing inputs): the word emitted by `__cxxamp_serialize` is the
multiplier, and the `user_deserialize` constructor builds a divisor for that word as if it
were the divider. For `d = 7` the original constants `(613566757, 1, 2)` come back as
`(3221225467, 1, 29)`; for `d = 2`, `(1, 1, 0)` comes back as `(1, 0, 0)`; for `d = 5`
the emitted word fails the constructor's assertion. -/
theorem serialize_roundtrip_fails :
    TensorIntDivisor.construct 32 7 = some { multiplier := 613566757, shift1 := 1, shift2 := 2 } ∧
      array_user_deserialize
          (__cxxamp_serialize { multiplier := 613566757, shift1 := 1, shift2 := 2 })
        = some { multiplier := 3221225467, shift1 := 1, shift2 := 29 } ∧
      TensorIntDivisor.construct 32 2 = some { multiplier := 1, shift1 := 1, shift2 := 0 } ∧
      array_user_deserialize (__cxxamp_serialize { multiplier := 1, shift1 := 1, shift2 := 0 })
        = some { multiplier := 1, shift1 := 0, shift2 := 0 } ∧
      TensorIntDivisor.construct 32 5
        = some { multiplier := 2576980378, shift1 := 1, shift2 := 2 } ∧
      array_user_deserialize
          (__cxxamp_serialize { multiplier := 2576980378, shift1 := 1, shift2 := 2 })
        = none := by
  decide

/-! ## `divup` -/

/-- C28: for all integers `x ≥ 0` and `y > 0` (with `x + y - 1` not overflowing),
`divup(x, y) = ⌈x / y⌉`: it is the least `q` with `q * y ≥ x`, so `divup(0, y) = 0` and
`divup(x, y) * y - x` lies in `[0, y - 1]`. -/
theorem divup_is_ceil (x y : Int) (hx : 0 ≤ x) (hy : 0 < y) :
    divup x y = ⌈(x : ℚ) / (y : ℚ)⌉ ∧ x ≤ divup x y * y ∧
      (∀ q : Int, x ≤ q * y → divup x y ≤ q) ∧ divup 0 y = 0 ∧
      0 ≤ divup x y * y - x ∧ divup x y * y - x ≤ y - 1 := by
  have hdef : ∀ z : Int, 0 ≤ z → divup z y = (z + y - 1) / y := by
    intro z hz
    unfold divup
    exact Int.tdiv_eq_ediv (by omega) hy.le
  have h1 := Int.ediv_add_emod (x + y - 1) y
  have h2 := Int.emod_nonneg (x + y - 1) hy.ne'
  have h3 := Int.emod_lt_of_pos (x + y - 1) hy
  rw [hdef x hx]
  generalize (x + y - 1) / y = q0 at *
  generalize (x + y - 1) % y = r at *
  have hmul : q0 * y = x + y - 1 - r := by
    rw [mul_comm]
    omega
  have hleast : ∀ q : Int, x ≤ q * y → q0 ≤ q := by
    intro q hq
    by_contra hlt
    push_neg at hlt
    have h4 : (q + 1) * y ≤ q0 * y := Int.mul_le_mul_of_nonneg_right (by omega) hy.le
    rw [add_mul, one_mul] at h4
    omega
  refine ⟨?_, by omega, hleast, ?_, by omega, by omega⟩
  · symm
    rw [Int.ceil_eq_iff]
    have hyq : (0 : ℚ) < (y : ℚ) := by exact_mod_cast hy
    constructor
    · rw [lt_div_iff₀ hyq]
      have : (q0 - 1) * y < x := by
        rw [sub_mul, one_mul]
        omega
      exact_mod_cast this
    · rw [div_le_iff₀ hyq]
      have : x ≤ q0 * y := by omega
      exact_mod_cast this
  · rw [hdef 0 (le_refl _)]
    exact Int.ediv_eq_zero_of_lt (by omega) (by omega)

theorem divup_is_ceil_witness :
    (0 : Int) ≤ 7 ∧ (0 : Int) < 2 ∧ divup 7 2 = ⌈((7 : Int) : ℚ) / ((2 : Int) : ℚ)⌉ ∧
      (7 : Int) ≤ divup 7 2 * 2 :=
  ⟨by decide, by decide, (divup_is_ceil 7 2 (by decide) (by decide)).1,
    (divup_is_ceil 7 2 (by decide) (by decide)).2.1⟩

/-! ## The software leading-zero counters on positive arguments -/

/-- C29: on nonzero inputs with the top bit clear the software leading-zero counters are
exact: `__hip_clz(x) = 31 - ⌊log2 x⌋` for `0 < x < 2^31`, and
`__hip_clzll(x) = 63 - ⌊log2 x⌋` for `0 < x < 2^63`. -/
theorem hip_clz_exact_top_bit_clear (x : Nat) (h0 : 0 < x) :
    (x < 2 ^ 31 → __hip_clz (x : Int) = 31 - (Nat.log 2 x : Int)) ∧
      (x < 2 ^ 63 → __hip_clzll (x : Int) = 63 - (Nat.log 2 x : Int)) := by
  constructor
  · intro hx
    obtain ⟨r, hr, hrn, hlo, hhi⟩ := hip_clz_loop_spec 32 0 x h0 (by omega)
    have e : 32 - r = (32 - 1 - r) + 1 := by omega
    rw [e] at hhi
    have hlog := Nat.log_eq_of_pow_le_of_lt_pow hlo hhi
    unfold __hip_clz
    rw [hr, hlog]
    omega
  · intro hx
    obtain ⟨r, hr, hrn, hlo, hhi⟩ := hip_clz_loop_spec 64 0 x h0 (by omega)
    have e : 64 - r = (64 - 1 - r) + 1 := by omega
    rw [e] at hhi
    have hlog := Nat.log_eq_of_pow_le_of_lt_pow hlo hhi
    unfold __hip_clzll
    rw [hr, hlog]
    omega

theorem hip_clz_exact_top_bit_clear_witness :
    0 < 1000 ∧ 1000 < 2 ^ 31 ∧ __hip_clz ((1000 : Nat) : Int) = 31 - (Nat.log 2 1000 : Int) :=
  ⟨by decide, by decide, (hip_clz_exact_top_bit_clear 1000 (by decide)).1 (by decide)⟩

/-! ## Half-precision comparison -/

/-- C30: `__hip_hisnan` returns false for every 16-bit pattern, the NaN encoding `0x7E00`
included, and consequently `__hip_heq(a, b)` is true exactly when the raw 16-bit patterns
of `a` and `b` are equal. -/
theorem hip_heq_iff_same_pattern (a b : __hip_half) (_ha : a.x < 2 ^ 16)
    (_hb : b.x < 2 ^ 16) :
    __hip_hisnan a = false ∧ __hip_hisnan { x := 0x7E00 } = false ∧
      (__hip_heq a b = true ↔ a.x = b.x) := by
  have hnan : ∀ c : __hip_half, __hip_hisnan c = false := by
    intro c
    unfold __hip_hisnan
    rw [if_pos rfl]
  refine ⟨hnan a, hnan _, ?_⟩
  unfold __hip_heq
  rw [hnan a, hnan b]
  unfold __hip_hisinf
  by_cases h1 : a.x = 0xFC00 <;> by_cases h2 : a.x = 0x7C00 <;>
    by_cases h3 : b.x = 0xFC00 <;> by_cases h4 : b.x = 0x7C00 <;>
    simp [h1, h2, h3, h4] <;> omega

theorem hip_heq_iff_same_pattern_witness :
    (0x7E00 : Nat) < 2 ^ 16 ∧ (0x7E00 : Nat) < 2 ^ 16 ∧
      (__hip_heq { x := 0x7E00 } { x := 0x7E00 } = true ↔ (0x7E00 : Nat) = 0x7E00) :=
  ⟨by decide, by decide,
    (hip_heq_iff_same_pattern { x := 0x7E00 } { x := 0x7E00 } (by decide) (by decide)).2.2⟩

end Eigen.internal



